import Mathlib

/-!
Shallow embedding of the `diskcache` cache engine (src/diskcache/core.py and
src/diskcache/stampede.py) together with proofs about its specification.

Conventions of the embedding:
* Python values that can be stored or used as keys are `PyVal`.
* The SQLite database is modelled by `CacheState`: the `Cache` table is a list
  of `Row`, the `Settings` counters are fields, and the triggers
  `Settings_count_insert/delete` and `Settings_size_insert/update/delete`
  are mirrored inside the row-mutation helpers (`insertRow`, `updateRows`,
  `Cache.delete_row`), exactly as the SQL triggers fire per affected row.
* The file store is a finite map from file names to contents.  Fresh
  128-bit random names from `uuid4` are modelled by the fresh counter
  `nextFileId` (freshness is what the engine relies on).
* Wall-clock times (`time.time()` floats) are modelled as rationals and
  passed explicitly to each operation.
* The external `pickle` serializer is modelled by the constructor-tagged
  encoding `pickleBytes`; the engine only relies on pickling being a
  deterministic, invertible encoding with a byte length.
-/

namespace DiskCache

/-- Byte strings are lists of byte values. -/
abbrev Bytes := List Nat

/-- Python values handled by the codec: `None`, `int`, `float` (opaque
payload, only its identity matters to the engine), `str`, `bytes`, and any
other picklable object (opaque). -/
inductive PyVal where
  | none
  | int (n : Int)
  | float (f : Int)
  | text (s : String)
  | bytes (b : Bytes)
  | obj (o : Nat)
deriving DecidableEq, Repr

/-- Source constant `MAX_INT = sys.maxsize` (64-bit build). -/
def MAX_INT : Int := 2 ^ 63 - 1

/-- Source constant `MIN_INT = -sys.maxsize - 1`. -/
def MIN_INT : Int := -(2 ^ 63)

/-- Source constant `MODE_NONE`. -/
def MODE_NONE : Nat := 0
/-- Source constant `MODE_RAW`. -/
def MODE_RAW : Nat := 1
/-- Source constant `MODE_BINARY`. -/
def MODE_BINARY : Nat := 2
/-- Source constant `MODE_TEXT`. -/
def MODE_TEXT : Nat := 3
/-- Source constant `MODE_PICKLE`. -/
def MODE_PICKLE : Nat := 4

/-- UTF-8 byte rendering of a string, used for sizes of TEXT files. -/
def utf8Bytes (s : String) : Bytes :=
  s.toUTF8.toList.map (fun c => c.toNat)

/-- Model of the external `pickle.dumps`: a deterministic constructor-tagged
byte encoding.  The engine relies only on pickling being deterministic and
invertible and on the byte length of the result. -/
def pickleBytes : PyVal → Bytes
  | .none => [9]
  | .int n => [0, if n < 0 then 1 else 0] ++ Nat.digits 256 n.natAbs
  | .float f => 2 :: Nat.digits 256 f.natAbs
  | .text s => 3 :: utf8Bytes s
  | .bytes b => 4 :: b
  | .obj o => 5 :: Nat.digits 256 o

/-- Byte length of the modelled pickle of a value (`len(pickle.dumps(v))`). -/
def pickleLen (v : PyVal) : Nat := (pickleBytes v).length

/-- The `key` column of the Cache table.  The distinct constructors model the
distinct SQLite storage classes produced by `Disk.put`: a raw binary blob for
bytes keys, native storage for text, in-range integer and float keys, and an
opaque pickled blob for everything else (pickle determinism/injectivity is
modelled by the constructor). -/
inductive DBKeyV where
  | blob (b : Bytes)
  | intk (n : Int)
  | textk (s : String)
  | floatk (f : Int)
  | pickled (v : PyVal)
deriving DecidableEq, Repr

/-- The `value` column of the Cache table. -/
inductive DBVal where
  | blob (b : Bytes)
  | intv (n : Int)
  | textv (s : String)
  | floatv (f : Int)
  | pickled (v : PyVal)
deriving DecidableEq, Repr

/-- Contents of a value file on disk: raw bytes for BINARY mode, UTF-8 text
for TEXT mode, or a pickled object for large PICKLE values. -/
inductive FileContent where
  | bin (b : Bytes)
  | txt (s : String)
  | pick (v : PyVal)
deriving DecidableEq, Repr

/-- Raw bytes obtained by reading a file in binary mode. -/
def FileContent.asBytes : FileContent → Bytes
  | .bin b => b
  | .txt s => utf8Bytes s
  | .pick v => pickleBytes v

namespace Disk

/-- Source `Disk.put`: convert a key to the `(key, raw)` fields of the Cache
table.  Bytes keys become raw blobs; text, in-range integers and floats are
stored natively with `raw = true`; everything else is pickled with
`raw = false`. -/
def put : PyVal → DBKeyV × Bool
  | .bytes b => (.blob b, true)
  | .text s => (.textk s, true)
  | .int n =>
      if MIN_INT ≤ n ∧ n ≤ MAX_INT then (.intk n, true)
      else (.pickled (.int n), false)
  | .float f => (.floatk f, true)
  | .none => (.pickled .none, false)
  | .obj o => (.pickled (.obj o), false)

/-- Result of `Disk.store`: the `(size, mode, filename, value)` fields for
the Cache table plus the content written to the staged file, if any. -/
structure StoreRes where
  size : Nat
  mode : Nat
  filename : Option Nat
  value : Option DBVal
  content : Option FileContent
deriving DecidableEq, Repr

/-- Pickle fall-through branch of `Disk.store`. -/
def pickleStoreRes (v : PyVal) (threshold : Nat) (fname : Nat) : StoreRes :=
  if pickleLen v < threshold then
    ⟨0, MODE_PICKLE, Option.none, some (.pickled v), Option.none⟩
  else
    ⟨pickleLen v, MODE_PICKLE, some fname, Option.none, some (.pick v)⟩

/-- Source `Disk.store` with `read = False` (the streaming branch is for
file-like objects which are outside the claims considered here): decide
inline-vs-file storage for a value.  `fname` is the fresh file name that
`prep_file` would allocate if a file is needed. -/
def store (value : PyVal) (threshold : Nat) (fname : Nat) : StoreRes :=
  match value with
  | .text s =>
      if s.length < threshold then
        ⟨0, MODE_RAW, Option.none, some (.textv s), Option.none⟩
      else
        ⟨(utf8Bytes s).length, MODE_TEXT, some fname, Option.none, some (.txt s)⟩
  | .int n =>
      if MIN_INT ≤ n ∧ n ≤ MAX_INT then
        ⟨0, MODE_RAW, Option.none, some (.intv n), Option.none⟩
      else pickleStoreRes (.int n) threshold fname
  | .float f => ⟨0, MODE_RAW, Option.none, some (.floatv f), Option.none⟩
  | .bytes b =>
      if b.length < threshold then
        ⟨b.length, MODE_RAW, Option.none, some (.blob b), Option.none⟩
      else
        ⟨b.length, MODE_BINARY, some fname, Option.none, some (.bin b)⟩
  | .none => pickleStoreRes .none threshold fname
  | .obj o => pickleStoreRes (.obj o) threshold fname

/-- Error outcomes of `Disk.fetch`: a missing file (`IOError` with `ENOENT`)
or any other exception (which `Cache.get` does not catch). -/
inductive FetchErr where
  | enoent
  | typeErr
deriving DecidableEq, Repr

/-- Look a file name up in the modelled file store. -/
def lookupFile (files : List (Nat × FileContent)) (f : Nat) : Option FileContent :=
  (files.find? (fun p => p.1 == f)).map (fun p => p.2)

/-- Source `Disk.fetch` with `read = False`: convert the `(mode, filename,
value)` fields of a row back to a value.  A file-backed mode whose file is
absent yields `enoent`; shape mismatches that would raise a non-IOError
exception in Python yield `typeErr`. -/
def fetch (files : List (Nat × FileContent)) (mode : Nat) (filename : Option Nat)
    (value : Option DBVal) : Except FetchErr PyVal :=
  if mode = MODE_RAW then
    .ok (match value with
      | some (.blob b) => .bytes b
      | some (.intv n) => .int n
      | some (.textv s) => .text s
      | some (.floatv f) => .float f
      | some (.pickled v) => .bytes (pickleBytes v)
      | Option.none => .none)
  else if mode = MODE_BINARY then
    match filename with
    | Option.none => .error .typeErr
    | some f =>
      match lookupFile files f with
      | Option.none => .error .enoent
      | some c => .ok (.bytes c.asBytes)
  else if mode = MODE_TEXT then
    match filename with
    | Option.none => .error .typeErr
    | some f =>
      match lookupFile files f with
      | Option.none => .error .enoent
      | some (.txt s) => .ok (.text s)
      | some _ => .error .typeErr
  else if mode = MODE_PICKLE then
    match value with
    | Option.none =>
      match filename with
      | Option.none => .error .typeErr
      | some f =>
        match lookupFile files f with
        | Option.none => .error .enoent
        | some (.pick v) => .ok v
        | some _ => .error .typeErr
    | some (.pickled v) => .ok v
    | some _ => .error .typeErr
  else
    .ok .none

end Disk

/-- The three recognized eviction policies. -/
inductive Policy where
  | lrs
  | lru
  | lfu
deriving DecidableEq, Repr

/-- A row of the `Cache` table (schema from `Cache.__init__`). -/
structure Row where
  rowid : Nat
  key : DBKeyV
  raw : Bool
  version : Nat
  store_time : Option ℚ
  expire_time : Option ℚ
  access_time : Option ℚ
  access_count : Nat
  tag : Option String
  size : Nat
  mode : Nat
  filename : Option Nat
  value : Option DBVal
deriving DecidableEq, Repr

/-- Tuning settings of the cache.  These are read but never written by the
modelled operations (`stats` only touches `statistics`, which lives directly
on the state).  `page_size` and `page_count` model the SQLite PRAGMA values
read by the cull pipeline. -/
structure Tuning where
  eviction_policy : Policy
  size_limit : Int
  cull_limit : Nat
  large_value_threshold : Nat
  page_size : Nat
  page_count : Nat
deriving DecidableEq, Repr

/-- The full state of one cache directory: the `Cache` table, the value
files on disk, fresh-identity counters, and the `Settings` counters that the
SQL triggers maintain. -/
structure CacheState where
  tuning : Tuning
  rows : List Row
  files : List (Nat × FileContent)
  nextRowid : Nat
  nextFileId : Nat
  count : Int
  sizeSetting : Int
  hits : Nat
  misses : Nat
  statistics : Bool
deriving DecidableEq, Repr

/-- Remove a file; `ENOENT` is tolerated, so removing an absent name is a
no-op (source `Cache._remove`). -/
def removeFile (files : List (Nat × FileContent)) (f : Nat) :
    List (Nat × FileContent) :=
  files.filter (fun p => !(p.1 == f))

/-- Write a file, truncating any previous content under the same name. -/
def writeFile (files : List (Nat × FileContent)) (f : Nat) (c : FileContent) :
    List (Nat × FileContent) :=
  removeFile files f ++ [(f, c)]

/-- Row lookup by the unique `(key, raw)` pair
(`SELECT ... WHERE key = ? AND raw = ?`). -/
def findRowKR (rows : List Row) (k : DBKeyV) (raw : Bool) : Option Row :=
  rows.find? (fun r => decide (r.key = k ∧ r.raw = raw))

/-- Insert a row.  Mirrors the SQL `INSERT` together with the
`Settings_count_insert` and `Settings_size_insert` triggers. -/
def insertRow (s : CacheState) (r : Row) : CacheState :=
  { s with rows := s.rows ++ [r],
           nextRowid := s.nextRowid + 1,
           count := s.count + 1,
           sizeSetting := s.sizeSetting + r.size }

/-- Update every row matching a predicate.  Mirrors a SQL `UPDATE` together
with the `Settings_size_update` trigger, which adds `NEW.size - OLD.size`
for each affected row; returns the affected row count. -/
def updateRows (s : CacheState) (p : Row → Bool) (f : Row → Row) :
    CacheState × Nat :=
  let matched := s.rows.filter p
  ({ s with rows := s.rows.map (fun r => if p r then f r else r),
            sizeSetting := s.sizeSetting +
              (matched.map (fun r => ((f r).size : Int) - (r.size : Int))).sum },
   matched.length)

namespace Cache

/-- Source `Cache._delete`: `DELETE FROM Cache WHERE rowid = ? AND
version = ?`, with the `Settings_count_delete` and `Settings_size_delete`
triggers firing per deleted row; the backing file is unlinked only when the
row count was exactly 1. -/
def delete_row (s : CacheState) (rowid version : Nat) (filename : Option Nat) :
    Bool × CacheState :=
  let p : Row → Bool := fun r => decide (r.rowid = rowid ∧ r.version = version)
  let matched := s.rows.filter p
  let s' : CacheState :=
    { s with rows := s.rows.filter (fun r => !(p r)),
             count := s.count - matched.length,
             sizeSetting := s.sizeSetting -
               (matched.map (fun r => (r.size : Int))).sum }
  if matched.length = 1 then
    match filename with
    | some f => (true, { s' with files := removeFile s'.files f })
    | Option.none => (true, s')
  else
    (false, s')

/-- Delete each row of a previously selected list in order, counting
successful deletes (the pattern of every deletion loop in the source). -/
def deleteRows (s : CacheState) : List Row → CacheState × Nat
  | [] => (s, 0)
  | r :: L =>
    let (ok, s') := delete_row s r.rowid r.version r.filename
    let (s'', m) := deleteRows s' L
    (s'', (if ok then 1 else 0) + m)

end Cache

/-- Ascending order on a nullable SQL column: `NULL` sorts first. -/
def optRatLe : Option ℚ → Option ℚ → Bool
  | Option.none, _ => true
  | some _, Option.none => false
  | some a, some b => a ≤ b

/-- Insert a row into a sorted list (helper for `sortRows`). -/
def insertLe (le : Row → Row → Bool) (r : Row) : List Row → List Row
  | [] => [r]
  | x :: xs => if le r x then r :: x :: xs else x :: insertLe le r xs

/-- Insertion sort modelling a SQL `ORDER BY` clause. -/
def sortRows (le : Row → Row → Bool) : List Row → List Row
  | [] => []
  | x :: xs => insertLe le x (sortRows le xs)

/-- `ORDER BY expire_time`. -/
def sortByExpire (l : List Row) : List Row :=
  sortRows (fun a b => optRatLe a.expire_time b.expire_time) l

/-- `ORDER BY rowid`. -/
def sortByRowid (l : List Row) : List Row :=
  sortRows (fun a b => decide (a.rowid ≤ b.rowid)) l

/-- The `ORDER BY` key of each policy's eviction query
(`EVICTION_POLICY[...]['set']`). -/
def policyLe (p : Policy) (a b : Row) : Bool :=
  match p with
  | .lrs => optRatLe a.store_time b.store_time
  | .lru => optRatLe a.access_time b.access_time
  | .lfu => decide (a.access_count ≤ b.access_count)

/-- Row selected as expired by the cull pipeline of `set`
(`expire_time IS NOT NULL AND expire_time < now`). -/
def isExpiredAt (r : Row) (now : ℚ) : Bool :=
  match r.expire_time with
  | some t => decide (t < now)
  | Option.none => false

namespace Cache

/-- The cull pipeline run at the end of a successful `set` (source lines
492-528).  Returns the new state, the number of rows the pass deleted, and
the computed total size at the point of the `size_limit` comparison
(`Option.none` when the expiry sweep exhausted the quota and the comparison
never ran). -/
def cullPass (s : CacheState) (now : ℚ) : CacheState × Nat × Option Int :=
  let cl := s.tuning.cull_limit
  let expired := (sortByExpire (s.rows.filter (fun r => isExpiredAt r now))).take cl
  let (s1, e) := deleteRows s expired
  if cl - e = 0 then
    (s1, e, Option.none)
  else
    let total : Int := (s.tuning.page_size * s.tuning.page_count : Nat) + s1.sizeSetting
    if total < s.tuning.size_limit then
      (s1, e, some total)
    else
      let victims := (sortRows (policyLe s.tuning.eviction_policy) s1.rows).take (cl - e)
      let (s2, p) := deleteRows s1 victims
      (s2, e + p, some total)

/-- Data captured by the first phase of `set`: the encoded key, the observed
version, and the staged payload. -/
structure PrepInfo where
  dbKey : DBKeyV
  raw : Bool
  version : Nat
  res : Disk.StoreRes
deriving DecidableEq, Repr

/-- First phase of `set` (source lines 421-449): encode the key, look up the
existing row or insert a reservation (`store_time = NULL`), remove the
payload file of the old version, and stage the new payload. -/
def setPrepare (s : CacheState) (key value : PyVal) : PrepInfo × CacheState :=
  let (dbk, raw) := Disk.put key
  let step1 : Nat × Option Nat × CacheState :=
    match findRowKR s.rows dbk raw with
    | some r => (r.version, r.filename, s)
    | Option.none =>
        let r : Row :=
          { rowid := s.nextRowid, key := dbk, raw := raw, version := 0,
            store_time := Option.none, expire_time := Option.none,
            access_time := Option.none, access_count := 0, tag := Option.none,
            size := 0, mode := MODE_NONE, filename := Option.none,
            value := Option.none }
        (0, Option.none, insertRow s r)
  let version := step1.1
  let oldFile := step1.2.1
  let s1 := step1.2.2
  let s2 : CacheState :=
    match oldFile with
    | some f => { s1 with files := removeFile s1.files f }
    | Option.none => s1
  let res := Disk.store value s2.tuning.large_value_threshold s2.nextFileId
  let s3 : CacheState :=
    match res.filename, res.content with
    | some f, some c =>
        { s2 with files := writeFile s2.files f c, nextFileId := s2.nextFileId + 1 }
    | _, _ => s2
  (⟨dbk, raw, version, res⟩, s3)

/-- Row transformation applied by the versioned `UPDATE` of `set`. -/
def setUpdateRow (info : PrepInfo) (now : ℚ) (expire : Option ℚ)
    (tag : Option String) (r : Row) : Row :=
  { r with version := info.version + 1,
           store_time := some now,
           expire_time := expire.map (fun e => now + e),
           access_time := some now,
           access_count := 0,
           tag := tag,
           size := info.res.size,
           mode := info.res.mode,
           filename := info.res.filename,
           value := info.res.value }

/-- Second phase of `set` (source lines 455-490): the versioned `UPDATE ...
WHERE key = ? AND raw = ? AND version = ?`.  When it affects zero rows
another writer won the race: the staged file is removed and `set` returns
without error (`false`). -/
def setCommit (s : CacheState) (info : PrepInfo) (now : ℚ) (expire : Option ℚ)
    (tag : Option String) : Bool × CacheState :=
  let (s1, n) := updateRows s
    (fun r => decide (r.key = info.dbKey ∧ r.raw = info.raw ∧ r.version = info.version))
    (setUpdateRow info now expire tag)
  if n = 0 then
    (false,
      match info.res.filename with
      | some f => { s1 with files := removeFile s1.files f }
      | Option.none => s1)
  else
    (true, s1)

/-- Full `Cache.set` pipeline: prepare, versioned update, and (on success)
the cull pass.  Returns the state, whether the update committed, the number
of rows deleted by the cull pass, and the computed total size if the pass
compared it against `size_limit`. -/
def setFull (s : CacheState) (key value : PyVal) (now : ℚ) (expire : Option ℚ)
    (tag : Option String) : CacheState × Bool × Nat × Option Int :=
  let (info, s1) := setPrepare s key value
  let (ok, s2) := setCommit s1 info now expire tag
  if ok then
    let (s3, culled, total) := cullPass s2 now
    (s3, true, culled, total)
  else
    (s2, false, 0, Option.none)

/-- Source `Cache.set` (returning just the state). -/
def set (s : CacheState) (key value : PyVal) (now : ℚ) (expire : Option ℚ)
    (tag : Option String) : CacheState :=
  (setFull s key value now expire tag).1

/-- Outcome of `Cache.get`: the miss branches return `default`, a hit
returns the fetched value, and a non-`ENOENT` exception from the codec
propagates (`raised`). -/
inductive GetOutcome where
  | miss
  | hit (v : PyVal)
  | raised
deriving DecidableEq, Repr

/-- Record a miss (`UPDATE Settings ... WHERE key = "misses"`), gated on the
`statistics` setting. -/
def bumpMiss (s : CacheState) : CacheState :=
  if s.statistics then { s with misses := s.misses + 1 } else s

/-- Record a hit, gated on the `statistics` setting. -/
def bumpHit (s : CacheState) : CacheState :=
  if s.statistics then { s with hits := s.hits + 1 } else s

/-- The per-read side effect of the eviction policy
(`EVICTION_POLICY[...]['get']`): none for least-recently-stored, touch
`access_time` for least-recently-used, increment `access_count` for
least-frequently-used. -/
def policyOnGet (s : CacheState) (rowid : Nat) (now : ℚ) : CacheState :=
  match s.tuning.eviction_policy with
  | .lrs => s
  | .lru => (updateRows s (fun r => decide (r.rowid = rowid))
      (fun r => { r with access_time := some now })).1
  | .lfu => (updateRows s (fun r => decide (r.rowid = rowid))
      (fun r => { r with access_count := r.access_count + 1 })).1

/-- Source `Cache.get` with `read=False` and no tuple flags (lines 533-609):
miss on absent row, reservation row (`store_time IS NULL`), expired entry,
or `ENOENT` from the codec; otherwise record a hit, apply the policy's read
side effect, and return the value. -/
def get (s : CacheState) (key : PyVal) (now : ℚ) : GetOutcome × CacheState :=
  let (dbk, raw) := Disk.put key
  match findRowKR s.rows dbk raw with
  | Option.none => (.miss, Cache.bumpMiss s)
  | some r =>
    if r.store_time = Option.none then (.miss, Cache.bumpMiss s)
    else
      match r.expire_time with
      | some t =>
        if t < now then (.miss, Cache.bumpMiss s)
        else
          match Disk.fetch s.files r.mode r.filename r.value with
          | .error .enoent => (.miss, Cache.bumpMiss s)
          | .error .typeErr => (.raised, s)
          | .ok v => (.hit v, policyOnGet (bumpHit s) r.rowid now)
      | Option.none =>
          match Disk.fetch s.files r.mode r.filename r.value with
          | .error .enoent => (.miss, Cache.bumpMiss s)
          | .error .typeErr => (.raised, s)
          | .ok v => (.hit v, policyOnGet (bumpHit s) r.rowid now)

/-- Source `Cache.__getitem__`: `get` with the `ENOVAL` sentinel; a miss
raises `KeyError` (modelled as `.error ()`). -/
def getitem (s : CacheState) (key : PyVal) (now : ℚ) :
    Except Unit PyVal × CacheState :=
  match get s key now with
  | (.miss, s') => (.error (), s')
  | (.hit v, s') => (.ok v, s')
  | (.raised, s') => (.error (), s')

/-- Source `Cache.__delitem__`: look the row up by `(key, raw)`; raise
`KeyError` (`.error ()`) if absent, otherwise `_delete` it. -/
def delitem (s : CacheState) (key : PyVal) : Except Unit CacheState :=
  let (dbk, raw) := Disk.put key
  match findRowKR s.rows dbk raw with
  | Option.none => .error ()
  | some r => .ok (delete_row s r.rowid r.version r.filename).2

/-- Source `Cache.delete`: `del self[key]` with `KeyError` ignored. -/
def delete (s : CacheState) (key : PyVal) : CacheState :=
  match delitem s key with
  | .error _ => s
  | .ok s' => s'

/-- One chunked scan of `Cache.expire` (source lines 798-818): select up to
`cull_limit` rows with `lastExpire < expire_time < now` ordered by
`expire_time`, delete them, and advance the lower bound to the last seen
`expire_time`. -/
def expireLoop (fuel : Nat) (s : CacheState) (lastExpire now : ℚ) : CacheState :=
  match fuel with
  | 0 => s
  | fuel + 1 =>
    let sel := (sortByExpire (s.rows.filter (fun r =>
      match r.expire_time with
      | some t => decide (lastExpire < t ∧ t < now)
      | Option.none => false))).take s.tuning.cull_limit
    match sel.getLast? with
    | Option.none => s
    | some lastRow =>
      let s' := (deleteRows s sel).1
      expireLoop fuel s' (lastRow.expire_time.getD lastExpire) now

/-- Source `Cache.expire`; the fuel is an upper bound on loop iterations
(each chunk is nonempty and strictly advances, so the state size bounds the
iteration count). -/
def expire (s : CacheState) (now : ℚ) : CacheState :=
  expireLoop (s.rows.length + 1) s 0 now

/-- Chunked delete loop shared by `evict` and `clear`: select up to
`cull_limit` rows matching `pred` with `rowid > bound` ordered by `rowid`,
delete them, and continue from the last seen rowid. -/
def chunkDeleteLoop (fuel : Nat) (s : CacheState) (pred : Row → Bool)
    (bound : Nat) : CacheState :=
  match fuel with
  | 0 => s
  | fuel + 1 =>
    let sel := (sortByRowid (s.rows.filter (fun r =>
      pred r && decide (bound < r.rowid)))).take s.tuning.cull_limit
    match sel.getLast? with
    | Option.none => s
    | some lastRow =>
      let s' := (deleteRows s sel).1
      chunkDeleteLoop fuel s' pred lastRow.rowid

/-- Source `Cache.evict`: chunked delete of rows with a matching tag.  SQL
`tag = ?` never matches when either side is `NULL`. -/
def evict (s : CacheState) (tag : Option String) : CacheState :=
  chunkDeleteLoop (s.rows.length + 1) s
    (fun r => match tag, r.tag with
      | some t, some rt => decide (rt = t)
      | _, _ => false)
    0

/-- Source `Cache.clear`: chunked delete of every row. -/
def clear (s : CacheState) : CacheState :=
  chunkDeleteLoop (s.rows.length + 1) s (fun _ => true) 0

/-- One step of the `Cache.filename` walk of `check(fix=True)`: a row whose
file exists is kept (its actual size is summed into a local), a row whose
file is missing is deleted. -/
def checkFileStep (s : CacheState) (r : Row) : CacheState :=
  match r.filename with
  | some f =>
    if (Disk.lookupFile s.files f).isSome then s
    else (delete_row s r.rowid r.version r.filename).2
  | Option.none => s

/-- One chunked scan of the `Cache.filename` walk of `check(fix=True)`
(source lines 738-760): rows with a filename whose file is missing are
deleted. -/
def checkFilesLoop (fuel : Nat) (s : CacheState) (bound : Nat) : CacheState :=
  match fuel with
  | 0 => s
  | fuel + 1 =>
    let sel := (sortByRowid (s.rows.filter (fun r =>
      decide (bound < r.rowid) && r.filename.isSome))).take s.tuning.cull_limit
    match sel.getLast? with
    | Option.none => s
    | some lastRow =>
      checkFilesLoop fuel (sel.foldl checkFileStep s) lastRow.rowid

/-- Sum of the `size` column over all Cache rows
(`SELECT COALESCE(SUM(size), 0) FROM Cache`). -/
def rowsSizeSum (rows : List Row) : Int :=
  (rows.map (fun r => (r.size : Int))).sum

/-- `Settings.count` repair of `check(fix=True)` against `COUNT(key)` —
note the source compares against the count of ALL rows. -/
def checkCountFix (s : CacheState) : CacheState :=
  if s.count ≠ (s.rows.length : Int) then { s with count := (s.rows.length : Int) }
  else s

/-- Reservation-row repair of `check(fix=True)`: delete every row with
`store_time IS NULL`. -/
def checkReservations (s : CacheState) : CacheState :=
  (deleteRows s (s.rows.filter (fun r => r.store_time.isNone))).1

/-- `Settings.size` repair of `check(fix=True)`. -/
def checkSizeFix (s : CacheState) : CacheState :=
  if s.sizeSetting ≠ rowsSizeSum s.rows then { s with sizeSetting := rowsSizeSum s.rows }
  else s

/-- Unreferenced-file removal of `check(fix=True)`. -/
def checkUnref (s : CacheState) : CacheState :=
  { s with
    files :=
      s.files.filter (fun p => (s.rows.filterMap (fun r => r.filename)).contains p.1) }

/-- Source `Cache.check` (lines 688-795).  With `fix=False` only warnings
are emitted and the state is unchanged.  With `fix=True`: repair
`Settings.count`, delete reservation rows, delete rows whose file is
missing, repair `Settings.size`, and remove files not referenced by any row
(the empty-directory sweep has no counterpart in the model). -/
def check (s : CacheState) (fix : Bool) : CacheState :=
  if fix then
    checkUnref (checkSizeFix
      (checkFilesLoop ((checkReservations (checkCountFix s)).rows.length + 1)
        (checkReservations (checkCountFix s)) 0))
  else s

/-- Source `Cache.stats`: report `(hits, misses)`, optionally reset them,
and set the `statistics` flag. -/
def stats (s : CacheState) (enable reset : Bool) :
    (Nat × Nat) × CacheState :=
  let result := (s.hits, s.misses)
  let s := if reset then { s with hits := 0, misses := 0 } else s
  (result, { s with statistics := enable })

/-- Source `Cache.__len__`: refresh and return `Settings.count`. -/
def len (s : CacheState) : Int := s.count

/-- State of a freshly created cache directory (`Cache.__init__` on an empty
directory): empty tables, zeroed counters.  SQLite assigns rowids from 1. -/
def init (t : Tuning) (statistics : Bool) : CacheState :=
  { tuning := t, rows := [], files := [], nextRowid := 1, nextFileId := 0,
    count := 0, sizeSetting := 0, hits := 0, misses := 0,
    statistics := statistics }

end Cache

/-- Tuning with the source's `DEFAULT_SETTINGS` (page size 4096, one page,
as for a fresh SQLite database). -/
def defaultTuning : Tuning :=
  { eviction_policy := .lrs, size_limit := 2 ^ 30, cull_limit := 10,
    large_value_threshold := 2 ^ 10, page_size := 4096, page_count := 1 }

/-- One committed public operation of the cache contract. -/
inductive Op where
  | opSet (key value : PyVal) (now : ℚ) (expire : Option ℚ) (tag : Option String)
  | opGet (key : PyVal) (now : ℚ)
  | opGetItem (key : PyVal) (now : ℚ)
  | opDelItem (key : PyVal)
  | opDelete (key : PyVal)
  | opExpire (now : ℚ)
  | opEvict (tag : Option String)
  | opClear
  | opCheck (fix : Bool)
  | opStats (enable reset : Bool)
  | opLen

/-- State transition of each committed operation. -/
def applyOp (o : Op) (s : CacheState) : CacheState :=
  match o with
  | .opSet key value now expire tag => Cache.set s key value now expire tag
  | .opGet key now => (Cache.get s key now).2
  | .opGetItem key now => (Cache.getitem s key now).2
  | .opDelItem key =>
      match Cache.delitem s key with
      | .error _ => s
      | .ok s' => s'
  | .opDelete key => Cache.delete s key
  | .opExpire now => Cache.expire s now
  | .opEvict tag => Cache.evict s tag
  | .opClear => Cache.clear s
  | .opCheck fix => Cache.check s fix
  | .opStats enable reset => (Cache.stats s enable reset).2
  | .opLen => s

/-! ### Derived definitions used by the specification theorems -/

/-- Tuning forcing the cull pass to evict the freshly written row:
`size_limit = 0`. -/
def c1CexTuning : Tuning := { defaultTuning with size_limit := 0 }

/-- Fresh cache with `size_limit = 0` after `set(b"\x00", b"\x01\x02")`. -/
def c1CexState : CacheState :=
  Cache.set (Cache.init c1CexTuning false) (.bytes [0]) (.bytes [1, 2]) 0
    Option.none Option.none

/-- State left by a `set` that inserted its reservation row and then died
before the versioned update (the reservation insert is itself a committed
statement in autocommit mode), followed by a committed no-op `delete` of an
absent key. -/
def c2CexState : CacheState :=
  Cache.delete
    ((Cache.setPrepare (Cache.init defaultTuning false) (.bytes [0]) (.bytes [1, 2])).2)
    (.bytes [9])

/-- `Settings.count` coincides with the total number of Cache rows
(reservations included) — what the triggers actually maintain. -/
def countInv (s : CacheState) : Prop := s.count = (s.rows.length : Int)

/-- `Settings.size` coincides with `SUM(Cache.size)` over all rows. -/
def sizeInv (s : CacheState) : Prop := s.sizeSetting = Cache.rowsSizeSum s.rows

/-- Concrete state with a reservation row (a `set` that died after its
reservation insert). -/
def c10State : CacheState :=
  (Cache.setPrepare (Cache.init defaultTuning false) (.bytes [0]) (.bytes [1, 2])).2

/-- The reservation row of `c10State`. -/
def c10Row : Row :=
  { rowid := 1, key := .blob [0], raw := true, version := 0,
    store_time := Option.none, expire_time := Option.none,
    access_time := Option.none, access_count := 0, tag := Option.none,
    size := 0, mode := MODE_NONE, filename := Option.none,
    value := Option.none }

/-- A TEXT-mode file, if present, holds text (otherwise decoding would raise
a non-`ENOENT` error). -/
def txtContentOK (files : List (Nat × FileContent)) (f : Nat) : Bool :=
  match Disk.lookupFile files f with
  | some (.txt _) => true
  | Option.none => true
  | some _ => false

/-- A PICKLE-mode file, if present, holds a pickled object. -/
def pickContentOK (files : List (Nat × FileContent)) (f : Nat) : Bool :=
  match Disk.lookupFile files f with
  | some (.pick _) => true
  | Option.none => true
  | some _ => false

/-- Shape invariant of a committed row, as produced by `set`: the mode is
one of RAW/BINARY/TEXT/PICKLE, file-backed modes carry a filename, inline
modes do not, and a backing file that exists holds content of the matching
kind.  Reservation rows are unconstrained (`get` never fetches them). -/
def rowOKb (files : List (Nat × FileContent)) (r : Row) : Bool :=
  if r.store_time = Option.none then true
  else if r.mode = MODE_RAW then r.filename.isNone
  else if r.mode = MODE_BINARY then r.filename.isSome
  else if r.mode = MODE_TEXT then
    match r.filename with
    | some f => txtContentOK files f
    | Option.none => false
  else if r.mode = MODE_PICKLE then
    match r.value, r.filename with
    | some (.pickled _), Option.none => true
    | Option.none, some f => pickContentOK files f
    | _, _ => false
  else false

/-- The miss condition claimed for `get`: no row, reservation row, expired
entry, or a named backing file that is missing on disk. -/
def missSpec (s : CacheState) (key : PyVal) (now : ℚ) : Prop :=
  match findRowKR s.rows (Disk.put key).1 (Disk.put key).2 with
  | Option.none => True
  | some r =>
      r.store_time = Option.none ∨
      (∃ t, r.expire_time = some t ∧ t < now) ∨
      (∃ f, r.filename = some f ∧ Disk.lookupFile s.files f = Option.none)

/-- State for the C6 witness: a committed small entry. -/
def c6State : CacheState :=
  Cache.set (Cache.init defaultTuning false) (.bytes [0]) (.bytes [1, 2]) 0
    Option.none Option.none

/-- Bound on the file name referenced by a row (decidable form). -/
def rowFileLt (r : Row) (n : Nat) : Bool :=
  match r.filename with
  | some f => decide (f < n)
  | Option.none => true

/-- Well-formed cache state: rowids are unique and below the next fresh
rowid, `(key, raw)` pairs are unique (invariant I1, enforced by the unique
index), and every referenced file name is below the fresh-name counter
(referenced names were all allocated earlier). -/
def WF (s : CacheState) : Prop :=
  (s.rows.map (fun x => x.rowid)).Nodup ∧
  (s.rows.map (fun x => (x.key, x.raw))).Nodup ∧
  (∀ r ∈ s.rows, r.rowid < s.nextRowid) ∧
  (∀ r ∈ s.rows, rowFileLt r s.nextFileId = true)

/-- Result of one call through the stampede-barrier wrapper: the returned
value, whether the wrapped function was invoked, and the tuple stored into
the cache with its TTL (if a store happened). -/
structure StampedeResult (α : Type) where
  value : α
  invoked : Bool
  stored : Option ((α × ℚ × ℚ) × ℚ)
deriving DecidableEq

/-- XFetch early-recompute condition of the stampede barrier
(`-delta * math.log(random.random()) < ttl`, stampede.py line 56): keep the
cached value when `-delta * ln u < ttl` for the fresh uniform draw `u`. -/
def xfetchKeep (delta ttl u : ℝ) : Prop := -delta * Real.log u < ttl

/-- Source `StampedeBarrier.__call__` wrapper (stampede.py lines 47-68).
`cached` is the outcome of `cache[key]` (`Option.none` when it raises
`KeyError`); `earlyKeep` is the Boolean outcome of the transcendental
comparison on the fresh draw, abstracted as an input and pinned to
`xfetchKeep` in the specification theorem; `now1` is the clock before the
recomputation and `funcDelta` its measured duration. -/
def stampedeCall {α : Type} (cached : Option (α × ℚ × ℚ)) (earlyKeep : Bool)
    (now1 : ℚ) (funcResult : α) (funcDelta : ℚ) (expire : ℚ) :
    StampedeResult α :=
  match cached with
  | some (result, _, _) =>
    if earlyKeep then ⟨result, false, Option.none⟩
    else ⟨funcResult, true, some ((funcResult, funcDelta, now1 + expire), expire)⟩
  | Option.none =>
    ⟨funcResult, true, some ((funcResult, funcDelta, now1 + expire), expire)⟩

/-! ### Generic list lemmas used by the development -/

theorem map_ite_eq_self {α : Type} {p : α → Bool} {f : α → α} {l : List α}
    (h : ∀ a ∈ l, ¬ p a) : l.map (fun a => if p a then f a else a) = l := by
  induction l with
  | nil => rfl
  | cons x xs ih =>
    have hx : ¬ p x := h x (by simp)
    simp only [List.map_cons, if_neg hx]
    rw [ih (fun a ha => h a (by simp [ha]))]

theorem lookupFile_removeFile_self (files : List (Nat × FileContent)) (f : Nat) :
    Disk.lookupFile (removeFile files f) f = Option.none := by
  unfold Disk.lookupFile removeFile
  rw [List.find?_eq_none.mpr]
  · rfl
  · intro x hx
    have := (List.mem_filter.mp hx).2
    simpa using this

theorem find?_filter_of_impl {α : Type} (l : List α) (p q : α → Bool)
    (h : ∀ a, q a = true → p a = true) :
    (l.filter p).find? q = l.find? q := by
  induction l with
  | nil => rfl
  | cons x xs ih =>
    rw [List.filter_cons]
    cases hp : p x with
    | true =>
      simp only [if_true]
      rw [List.find?_cons, List.find?_cons]
      cases hq : q x with
      | true => simp [hq]
      | false => simp [hq, ih]
    | false =>
      simp only [Bool.false_eq_true, if_false]
      have hq : q x = false := by
        cases hqx : q x with
        | true => rw [h x hqx] at hp; exact absurd hp (by simp)
        | false => rfl
      rw [ih, List.find?_cons, hq]

theorem lookupFile_removeFile_ne (files : List (Nat × FileContent)) {f n : Nat}
    (h : n ≠ f) :
    Disk.lookupFile (removeFile files f) n = Disk.lookupFile files n := by
  unfold Disk.lookupFile removeFile
  rw [find?_filter_of_impl]
  intro a ha
  simp only [beq_iff_eq] at ha
  simp only [ha, Bool.not_eq_true']
  simp only [beq_eq_false_iff_ne, ne_eq]
  omega

/-! ### C4 — Codec storage decision -/

/-- C4: the storage decision of `Disk.store`.  Bytes below the
`large_value_threshold` are stored inline with mode RAW and `size` equal to
the byte length; bytes at or above the threshold go to a file with mode
BINARY and `size` equal to the byte length; in-range integers, floats, and
text shorter than the threshold are stored inline with mode RAW and `size`
recorded as 0. -/
theorem disk_store_codec_decision (threshold fname : Nat) :
    (∀ b : Bytes, b.length < threshold →
      Disk.store (.bytes b) threshold fname =
        ⟨b.length, MODE_RAW, Option.none, some (.blob b), Option.none⟩) ∧
    (∀ b : Bytes, threshold ≤ b.length →
      Disk.store (.bytes b) threshold fname =
        ⟨b.length, MODE_BINARY, some fname, Option.none, some (.bin b)⟩) ∧
    (∀ n : Int, MIN_INT ≤ n → n ≤ MAX_INT →
      Disk.store (.int n) threshold fname =
        ⟨0, MODE_RAW, Option.none, some (.intv n), Option.none⟩) ∧
    (∀ f : Int, Disk.store (.float f) threshold fname =
        ⟨0, MODE_RAW, Option.none, some (.floatv f), Option.none⟩) ∧
    (∀ s : String, s.length < threshold →
      Disk.store (.text s) threshold fname =
        ⟨0, MODE_RAW, Option.none, some (.textv s), Option.none⟩) := by
  refine ⟨fun b h => ?_, fun b h => ?_, fun n h1 h2 => ?_, fun f => ?_, fun s h => ?_⟩
  · simp [Disk.store, h]
  · simp [Disk.store, Nat.not_lt.mpr h]
  · simp [Disk.store, h1, h2]
  · simp [Disk.store]
  · simp [Disk.store, h]

/-- Witness for C4 at concrete inputs. -/
theorem disk_store_codec_decision_witness :
    Disk.store (.bytes [1, 2]) 8 0 =
      ⟨2, MODE_RAW, Option.none, some (.blob [1, 2]), Option.none⟩ ∧
    Disk.store (.bytes [1, 2, 3, 4, 5, 6, 7, 8]) 8 0 =
      ⟨8, MODE_BINARY, some 0, Option.none, some (.bin [1, 2, 3, 4, 5, 6, 7, 8])⟩ ∧
    Disk.store (.int 3) 8 0 =
      ⟨0, MODE_RAW, Option.none, some (.intv 3), Option.none⟩ ∧
    Disk.store (.float 1) 8 0 =
      ⟨0, MODE_RAW, Option.none, some (.floatv 1), Option.none⟩ ∧
    Disk.store (.text "ab") 8 0 =
      ⟨0, MODE_RAW, Option.none, some (.textv "ab"), Option.none⟩ := by
  have h := disk_store_codec_decision 8 0
  exact ⟨h.1 [1, 2] (by decide), h.2.1 [1, 2, 3, 4, 5, 6, 7, 8] (by decide),
    h.2.2.1 3 (by decide) (by decide), h.2.2.2.1 1, h.2.2.2.2 "ab" (by decide)⟩

/-! ### C8 — Missing key at the public interface -/

/-- C8: for a key with no row, `__getitem__` and `__delitem__` raise
`KeyError` (modelled as `.error ()`), `get` returns `default` (`.miss`), and
`delete` returns without error leaving the state unchanged. -/
theorem missing_key_interface (s : CacheState) (key : PyVal) (now : ℚ)
    (h : findRowKR s.rows (Disk.put key).1 (Disk.put key).2 = Option.none) :
    (Cache.getitem s key now).1 = .error () ∧
    (Cache.get s key now).1 = .miss ∧
    Cache.delitem s key = .error () ∧
    Cache.delete s key = s := by
  rcases hput : Disk.put key with ⟨dbk, raw⟩
  rw [hput] at h
  have hget : Cache.get s key now = (.miss, Cache.bumpMiss s) := by
    unfold Cache.get
    rw [hput]
    simp only [h]
  have hdel : Cache.delitem s key = .error () := by
    unfold Cache.delitem
    rw [hput]
    simp only [h]
  refine ⟨?_, ?_, hdel, ?_⟩
  · unfold Cache.getitem
    rw [hget]
  · rw [hget]
  · unfold Cache.delete
    rw [hdel]

/-- Witness for C8 on a concrete fresh cache and absent key. -/
theorem missing_key_interface_witness :
    (Cache.getitem (Cache.init defaultTuning false) (.bytes [0]) 0).1 = .error () ∧
    (Cache.get (Cache.init defaultTuning false) (.bytes [0]) 0).1 = .miss ∧
    Cache.delitem (Cache.init defaultTuning false) (.bytes [0]) = .error () ∧
    Cache.delete (Cache.init defaultTuning false) (.bytes [0]) =
      Cache.init defaultTuning false :=
  missing_key_interface (Cache.init defaultTuning false) (.bytes [0]) 0 (by decide)

/-! ### C7 — Lost-write race in `set` -/

/-- C7: when the versioned update of `set` affects zero rows (another writer
won), `set` returns without raising (`false`, no exceptional outcome), the
just-staged file is removed, and the losing call leaves the rest of the
state — rows, counters, settings — unmodified. -/
theorem lost_write_race (s : CacheState) (info : Cache.PrepInfo) (now : ℚ)
    (expire : Option ℚ) (tag : Option String)
    (h : ∀ r ∈ s.rows,
      ¬(r.key = info.dbKey ∧ r.raw = info.raw ∧ r.version = info.version)) :
    Cache.setCommit s info now expire tag =
      (false,
        { s with files := match info.res.filename with
                          | some f => removeFile s.files f
                          | Option.none => s.files }) ∧
    (∀ f, info.res.filename = some f →
      Disk.lookupFile (Cache.setCommit s info now expire tag).2.files f =
        Option.none) := by
  set p : Row → Bool := fun r =>
    decide (r.key = info.dbKey ∧ r.raw = info.raw ∧ r.version = info.version) with hp
  have hfil : s.rows.filter p = [] := by
    apply List.filter_eq_nil_iff.mpr
    intro r hr
    simp only [hp, decide_eq_true_eq]
    exact h r hr
  have hmap : s.rows.map
      (fun r => if p r then Cache.setUpdateRow info now expire tag r else r) = s.rows :=
    map_ite_eq_self (fun r hr => by
      simp only [hp, decide_eq_true_eq]
      exact h r hr)
  have hupd : updateRows s p (Cache.setUpdateRow info now expire tag) = (s, 0) := by
    unfold updateRows
    rw [hfil, hmap]
    simp
  have hmain : Cache.setCommit s info now expire tag =
      (false,
        { s with files := match info.res.filename with
                          | some f => removeFile s.files f
                          | Option.none => s.files }) := by
    unfold Cache.setCommit
    rw [← hp, hupd]
    rcases info.res.filename with _ | f
    · simp
    · simp
  refine ⟨hmain, fun f hf => ?_⟩
  rw [hmain]
  simp only [hf]
  exact lookupFile_removeFile_self s.files f

/-- Witness for C7: a state whose only row has already moved to version 1
while the prepared info observed version 0. -/
theorem lost_write_race_witness :
    (let s := Cache.set (Cache.init defaultTuning false) (.bytes [0])
        (.bytes [1, 2]) 0 Option.none Option.none
     let info : Cache.PrepInfo :=
       ⟨.blob [0], true, 0, ⟨2, MODE_RAW, Option.none, some (.blob [3, 4]), Option.none⟩⟩
     Cache.setCommit s info 1 Option.none Option.none = (false, { s with files := s.files })) := by
  have h := lost_write_race
    (Cache.set (Cache.init defaultTuning false) (.bytes [0]) (.bytes [1, 2]) 0
      Option.none Option.none)
    ⟨.blob [0], true, 0, ⟨2, MODE_RAW, Option.none, some (.blob [3, 4]), Option.none⟩⟩
    1 Option.none Option.none (by decide)
  exact h.1

/-! ### C1 — Round-trip: counterexample -/

/-- Counterexample to C1 as stated: on a cache whose `size_limit` is 0, the
cull pass run by `set` itself evicts the row just written, so the following
`get` misses instead of returning the stored value. -/
theorem roundtrip_cex :
    (Cache.get c1CexState (.bytes [0]) 0).1 = .miss ∧
    (Cache.get c1CexState (.bytes [0]) 0).1 ≠ .hit (.bytes [1, 2]) := by
  decide

/-! ### C2 — Committed count: counterexample -/

/-- Counterexample to C2 as stated: the `Settings_count_insert` trigger
counts the reservation row, so after a committed operation `len()` is 1
while the number of rows with `store_time ≠ NULL` is 0. -/
theorem committed_count_cex :
    Cache.len c2CexState = 1 ∧
    ((c2CexState.rows.filter (fun r => r.store_time.isSome)).length : Int) = 0 ∧
    Cache.len c2CexState ≠
      ((c2CexState.rows.filter (fun r => r.store_time.isSome)).length : Int) := by
  decide

/-! ### Counter invariants (claims C2 and C5)

The `Settings_count_*` and `Settings_size_*` triggers keep `Settings.count`
equal to the total number of Cache rows and `Settings.size` equal to the sum
of the `size` column, reservations included. -/

theorem rowsSizeSum_append (a b : List Row) :
    Cache.rowsSizeSum (a ++ b) = Cache.rowsSizeSum a + Cache.rowsSizeSum b := by
  simp [Cache.rowsSizeSum]

theorem rowsSizeSum_filter_split (l : List Row) (p : Row → Bool) :
    Cache.rowsSizeSum l =
      Cache.rowsSizeSum (l.filter p) + Cache.rowsSizeSum (l.filter (fun a => !(p a))) := by
  induction l with
  | nil => simp [Cache.rowsSizeSum]
  | cons x xs ih =>
    cases hx : p x <;>
      simp only [Cache.rowsSizeSum, List.filter_cons, hx, Bool.not_true, Bool.not_false,
        Bool.false_eq_true, if_false, if_true, List.map_cons, List.sum_cons] at * <;>
      omega

theorem rowsSizeSum_map_ite (l : List Row) (p : Row → Bool) (f : Row → Row) :
    Cache.rowsSizeSum (l.map fun r => if p r then f r else r) =
      Cache.rowsSizeSum l +
        ((l.filter p).map (fun r => ((f r).size : Int) - (r.size : Int))).sum := by
  induction l with
  | nil => simp [Cache.rowsSizeSum]
  | cons x xs ih =>
    cases hx : p x <;>
      simp only [Cache.rowsSizeSum, List.map_cons, List.filter_cons, hx, Bool.false_eq_true,
        if_false, if_true, List.sum_cons, List.map_cons] at * <;>
      omega

/-- Explicit form of `Cache.delete_row`: the row filter, the trigger-updated
counters, and the conditional file unlink. -/
theorem delete_row_eq (s : CacheState) (rowid version : Nat) (fn : Option Nat) :
    Cache.delete_row s rowid version fn =
      (decide ((s.rows.filter
          (fun r => decide (r.rowid = rowid ∧ r.version = version))).length = 1),
       { s with
         rows := s.rows.filter
           (fun r => !(decide (r.rowid = rowid ∧ r.version = version))),
         count := s.count - ((s.rows.filter
           (fun r => decide (r.rowid = rowid ∧ r.version = version))).length : Int),
         sizeSetting := s.sizeSetting - Cache.rowsSizeSum (s.rows.filter
           (fun r => decide (r.rowid = rowid ∧ r.version = version))),
         files :=
           if (s.rows.filter
               (fun r => decide (r.rowid = rowid ∧ r.version = version))).length = 1 then
             match fn with
             | some f => removeFile s.files f
             | Option.none => s.files
           else s.files }) := by
  unfold Cache.delete_row
  dsimp only
  split
  · rename_i h1
    simp only [Bool.decide_and] at h1
    cases fn <;> simp [Cache.rowsSizeSum, h1]
  · rename_i h1
    simp only [Bool.decide_and] at h1
    simp [Cache.rowsSizeSum, h1]

theorem countInv_delete_row {s : CacheState} (h : countInv s)
    (rowid version : Nat) (fn : Option Nat) :
    countInv (Cache.delete_row s rowid version fn).2 := by
  rw [delete_row_eq]
  unfold countInv at *
  have hsplit := List.length_eq_length_filter_add
    (l := s.rows) (fun r => decide (r.rowid = rowid ∧ r.version = version))
  simp only []
  omega

theorem sizeInv_delete_row {s : CacheState} (h : sizeInv s)
    (rowid version : Nat) (fn : Option Nat) :
    sizeInv (Cache.delete_row s rowid version fn).2 := by
  rw [delete_row_eq]
  unfold sizeInv at *
  have hsplit := rowsSizeSum_filter_split s.rows
    (fun r => decide (r.rowid = rowid ∧ r.version = version))
  simp only []
  omega

theorem countInv_deleteRows {s : CacheState} (h : countInv s) (L : List Row) :
    countInv (Cache.deleteRows s L).1 := by
  induction L generalizing s with
  | nil => exact h
  | cons r L ih =>
    unfold Cache.deleteRows
    exact ih (countInv_delete_row h r.rowid r.version r.filename)

theorem sizeInv_deleteRows {s : CacheState} (h : sizeInv s) (L : List Row) :
    sizeInv (Cache.deleteRows s L).1 := by
  induction L generalizing s with
  | nil => exact h
  | cons r L ih =>
    unfold Cache.deleteRows
    exact ih (sizeInv_delete_row h r.rowid r.version r.filename)

theorem countInv_insertRow {s : CacheState} (h : countInv s) (r : Row) :
    countInv (insertRow s r) := by
  unfold countInv insertRow at *
  simp only [List.length_append, List.length_cons, List.length_nil]
  push_cast
  omega

theorem sizeInv_insertRow {s : CacheState} (h : sizeInv s) (r : Row) :
    sizeInv (insertRow s r) := by
  unfold sizeInv insertRow at *
  rw [rowsSizeSum_append]
  simp [Cache.rowsSizeSum, h]

theorem countInv_updateRows {s : CacheState} (h : countInv s)
    (p : Row → Bool) (f : Row → Row) :
    countInv (updateRows s p f).1 := by
  unfold countInv updateRows at *
  simpa using h

theorem sizeInv_updateRows {s : CacheState} (h : sizeInv s)
    (p : Row → Bool) (f : Row → Row) :
    sizeInv (updateRows s p f).1 := by
  unfold sizeInv updateRows at *
  simp only []
  rw [rowsSizeSum_map_ite, h]

/-- `setPrepare` either leaves the table untouched or appends one
reservation row of size 0; it never changes the counters by more than the
insert trigger. -/
theorem setPrepare_shape (s : CacheState) (key value : PyVal) :
    ((Cache.setPrepare s key value).2.rows = s.rows ∧
     (Cache.setPrepare s key value).2.count = s.count ∧
     (Cache.setPrepare s key value).2.sizeSetting = s.sizeSetting) ∨
    (∃ r : Row, r.size = 0 ∧
     (Cache.setPrepare s key value).2.rows = s.rows ++ [r] ∧
     (Cache.setPrepare s key value).2.count = s.count + 1 ∧
     (Cache.setPrepare s key value).2.sizeSetting = s.sizeSetting) := by
  unfold Cache.setPrepare
  rcases Disk.put key with ⟨dbk, raw⟩
  dsimp only
  rcases findRowKR s.rows dbk raw with _ | r
  · right
    dsimp only
    refine ⟨{ rowid := s.nextRowid, key := dbk, raw := raw, version := 0,
              store_time := Option.none, expire_time := Option.none,
              access_time := Option.none, access_count := 0, tag := Option.none,
              size := 0, mode := MODE_NONE, filename := Option.none,
              value := Option.none }, rfl, ?_⟩
    split <;> simp [insertRow]
  · left
    dsimp only
    split <;> split <;> simp

theorem countInv_setPrepare {s : CacheState} (h : countInv s) (key value : PyVal) :
    countInv (Cache.setPrepare s key value).2 := by
  unfold countInv at *
  rcases setPrepare_shape s key value with ⟨h1, h2, _⟩ | ⟨r, _, h1, h2, _⟩
  · rw [h1, h2]
    exact h
  · rw [h1, h2, h]
    simp only [List.length_append, List.length_cons, List.length_nil]
    push_cast
    omega

theorem sizeInv_setPrepare {s : CacheState} (h : sizeInv s) (key value : PyVal) :
    sizeInv (Cache.setPrepare s key value).2 := by
  unfold sizeInv at *
  rcases setPrepare_shape s key value with ⟨h1, _, h3⟩ | ⟨r, hr, h1, _, h3⟩
  · rw [h1, h3, h]
  · rw [h1, h3, rowsSizeSum_append, h]
    simp [Cache.rowsSizeSum, hr]

/-- `setCommit` applies a row-wise update (firing the size trigger) and in
the zero-rowcount branch additionally removes the staged file; rows and the
count are affected exactly as by the `UPDATE`. -/
theorem setCommit_shape (s : CacheState) (info : Cache.PrepInfo) (now : ℚ)
    (expire : Option ℚ) (tag : Option String) :
    (Cache.setCommit s info now expire tag).2.rows =
      (updateRows s
        (fun r => decide (r.key = info.dbKey ∧ r.raw = info.raw ∧
          r.version = info.version))
        (Cache.setUpdateRow info now expire tag)).1.rows ∧
    (Cache.setCommit s info now expire tag).2.count = s.count ∧
    (Cache.setCommit s info now expire tag).2.sizeSetting =
      (updateRows s
        (fun r => decide (r.key = info.dbKey ∧ r.raw = info.raw ∧
          r.version = info.version))
        (Cache.setUpdateRow info now expire tag)).1.sizeSetting := by
  unfold Cache.setCommit
  dsimp only
  split
  · rcases info.res.filename with _ | f <;> simp [updateRows]
  · simp [updateRows]

theorem countInv_setCommit {s : CacheState} (h : countInv s)
    (info : Cache.PrepInfo) (now : ℚ) (expire : Option ℚ) (tag : Option String) :
    countInv (Cache.setCommit s info now expire tag).2 := by
  have hs := setCommit_shape s info now expire tag
  unfold countInv at *
  rw [hs.1, hs.2.1]
  simp [updateRows, h]

theorem sizeInv_setCommit {s : CacheState} (h : sizeInv s)
    (info : Cache.PrepInfo) (now : ℚ) (expire : Option ℚ) (tag : Option String) :
    sizeInv (Cache.setCommit s info now expire tag).2 := by
  have hs := setCommit_shape s info now expire tag
  have h2 := sizeInv_updateRows h
    (fun r => decide (r.key = info.dbKey ∧ r.raw = info.raw ∧
      r.version = info.version))
    (Cache.setUpdateRow info now expire tag)
  unfold sizeInv at *
  rw [hs.1, hs.2.2, h2]

theorem countInv_cullPass {s : CacheState} (h : countInv s) (now : ℚ) :
    countInv (Cache.cullPass s now).1 := by
  unfold Cache.cullPass
  dsimp only
  rcases hd : Cache.deleteRows s
      ((sortByExpire (s.rows.filter (fun r => isExpiredAt r now))).take
        s.tuning.cull_limit) with ⟨s1, e⟩
  have h1 : countInv s1 := by
    have := countInv_deleteRows h
      ((sortByExpire (s.rows.filter (fun r => isExpiredAt r now))).take
        s.tuning.cull_limit)
    rwa [hd] at this
  dsimp only
  split
  · exact h1
  · split
    · exact h1
    · rcases hd2 : Cache.deleteRows s1
          ((sortRows (policyLe s.tuning.eviction_policy) s1.rows).take
            (s.tuning.cull_limit - e)) with ⟨s2, p2⟩
      have h2 := countInv_deleteRows h1
        ((sortRows (policyLe s.tuning.eviction_policy) s1.rows).take
          (s.tuning.cull_limit - e))
      rw [hd2] at h2
      exact h2

theorem sizeInv_cullPass {s : CacheState} (h : sizeInv s) (now : ℚ) :
    sizeInv (Cache.cullPass s now).1 := by
  unfold Cache.cullPass
  dsimp only
  rcases hd : Cache.deleteRows s
      ((sortByExpire (s.rows.filter (fun r => isExpiredAt r now))).take
        s.tuning.cull_limit) with ⟨s1, e⟩
  have h1 : sizeInv s1 := by
    have := sizeInv_deleteRows h
      ((sortByExpire (s.rows.filter (fun r => isExpiredAt r now))).take
        s.tuning.cull_limit)
    rwa [hd] at this
  dsimp only
  split
  · exact h1
  · split
    · exact h1
    · rcases hd2 : Cache.deleteRows s1
          ((sortRows (policyLe s.tuning.eviction_policy) s1.rows).take
            (s.tuning.cull_limit - e)) with ⟨s2, p2⟩
      have h2 := sizeInv_deleteRows h1
        ((sortRows (policyLe s.tuning.eviction_policy) s1.rows).take
          (s.tuning.cull_limit - e))
      rw [hd2] at h2
      exact h2

theorem countInv_set {s : CacheState} (h : countInv s) (key value : PyVal)
    (now : ℚ) (expire : Option ℚ) (tag : Option String) :
    countInv (Cache.set s key value now expire tag) := by
  unfold Cache.set Cache.setFull
  dsimp only
  rcases hp : Cache.setPrepare s key value with ⟨info, s1⟩
  have h1 : countInv s1 := by
    have := countInv_setPrepare h key value
    rwa [hp] at this
  rcases hc : Cache.setCommit s1 info now expire tag with ⟨ok, s2⟩
  have h2 : countInv s2 := by
    have := countInv_setCommit h1 info now expire tag
    rwa [hc] at this
  dsimp only
  split
  · exact countInv_cullPass h2 now
  · exact h2

theorem sizeInv_set {s : CacheState} (h : sizeInv s) (key value : PyVal)
    (now : ℚ) (expire : Option ℚ) (tag : Option String) :
    sizeInv (Cache.set s key value now expire tag) := by
  unfold Cache.set Cache.setFull
  dsimp only
  rcases hp : Cache.setPrepare s key value with ⟨info, s1⟩
  have h1 : sizeInv s1 := by
    have := sizeInv_setPrepare h key value
    rwa [hp] at this
  rcases hc : Cache.setCommit s1 info now expire tag with ⟨ok, s2⟩
  have h2 : sizeInv s2 := by
    have := sizeInv_setCommit h1 info now expire tag
    rwa [hc] at this
  dsimp only
  split
  · exact sizeInv_cullPass h2 now
  · exact h2

/-- The state side of `get` is either untouched, a miss bump, or a hit bump
followed by the policy's read side effect. -/
theorem get_state_shape (s : CacheState) (key : PyVal) (now : ℚ) :
    (Cache.get s key now).2 = s ∨
    (Cache.get s key now).2 = Cache.bumpMiss s ∨
    ∃ rid, (Cache.get s key now).2 = Cache.policyOnGet (Cache.bumpHit s) rid now := by
  unfold Cache.get
  rcases Disk.put key with ⟨dbk, raw⟩
  dsimp only
  split
  · right; left; rfl
  · split
    · right; left; rfl
    · split
      · split
        · right; left; rfl
        · split
          · right; left; rfl
          · left; rfl
          · right; right; exact ⟨_, rfl⟩
      · split
        · right; left; rfl
        · left; rfl
        · right; right; exact ⟨_, rfl⟩

theorem countInv_bumpMiss {s : CacheState} (h : countInv s) :
    countInv (Cache.bumpMiss s) := by
  unfold Cache.bumpMiss
  split <;> exact h

theorem countInv_bumpHit {s : CacheState} (h : countInv s) :
    countInv (Cache.bumpHit s) := by
  unfold Cache.bumpHit
  split <;> exact h

theorem sizeInv_bumpMiss {s : CacheState} (h : sizeInv s) :
    sizeInv (Cache.bumpMiss s) := by
  unfold Cache.bumpMiss
  split <;> exact h

theorem sizeInv_bumpHit {s : CacheState} (h : sizeInv s) :
    sizeInv (Cache.bumpHit s) := by
  unfold Cache.bumpHit
  split <;> exact h

theorem countInv_policyOnGet {s : CacheState} (h : countInv s) (rid : Nat) (now : ℚ) :
    countInv (Cache.policyOnGet s rid now) := by
  unfold Cache.policyOnGet
  split
  · exact h
  · exact countInv_updateRows h _ _
  · exact countInv_updateRows h _ _

theorem sizeInv_policyOnGet {s : CacheState} (h : sizeInv s) (rid : Nat) (now : ℚ) :
    sizeInv (Cache.policyOnGet s rid now) := by
  unfold Cache.policyOnGet
  split
  · exact h
  · exact sizeInv_updateRows h _ _
  · exact sizeInv_updateRows h _ _

theorem countInv_get {s : CacheState} (h : countInv s) (key : PyVal) (now : ℚ) :
    countInv (Cache.get s key now).2 := by
  rcases get_state_shape s key now with h1 | h1 | ⟨rid, h1⟩ <;> rw [h1]
  · exact h
  · exact countInv_bumpMiss h
  · exact countInv_policyOnGet (countInv_bumpHit h) rid now

theorem sizeInv_get {s : CacheState} (h : sizeInv s) (key : PyVal) (now : ℚ) :
    sizeInv (Cache.get s key now).2 := by
  rcases get_state_shape s key now with h1 | h1 | ⟨rid, h1⟩ <;> rw [h1]
  · exact h
  · exact sizeInv_bumpMiss h
  · exact sizeInv_policyOnGet (sizeInv_bumpHit h) rid now

theorem getitem_state (s : CacheState) (key : PyVal) (now : ℚ) :
    (Cache.getitem s key now).2 = (Cache.get s key now).2 := by
  unfold Cache.getitem
  rcases hg : Cache.get s key now with ⟨o, s2⟩
  cases o <;> rfl

theorem countInv_delitem {s : CacheState} (h : countInv s) (key : PyVal) :
    countInv (match Cache.delitem s key with
      | .error _ => s
      | .ok s' => s') := by
  unfold Cache.delitem
  rcases Disk.put key with ⟨dbk, raw⟩
  dsimp only
  rcases findRowKR s.rows dbk raw with _ | r
  · exact h
  · exact countInv_delete_row h _ _ _

theorem sizeInv_delitem {s : CacheState} (h : sizeInv s) (key : PyVal) :
    sizeInv (match Cache.delitem s key with
      | .error _ => s
      | .ok s' => s') := by
  unfold Cache.delitem
  rcases Disk.put key with ⟨dbk, raw⟩
  dsimp only
  rcases findRowKR s.rows dbk raw with _ | r
  · exact h
  · exact sizeInv_delete_row h _ _ _

theorem countInv_expireLoop (fuel : Nat) :
    ∀ (s : CacheState) (lastExpire now : ℚ), countInv s →
      countInv (Cache.expireLoop fuel s lastExpire now) := by
  induction fuel with
  | zero => intro s a b h; exact h
  | succ fuel ih =>
    intro s a b h
    unfold Cache.expireLoop
    dsimp only
    split
    · exact h
    · exact ih _ _ _ (countInv_deleteRows h _)

theorem sizeInv_expireLoop (fuel : Nat) :
    ∀ (s : CacheState) (lastExpire now : ℚ), sizeInv s →
      sizeInv (Cache.expireLoop fuel s lastExpire now) := by
  induction fuel with
  | zero => intro s a b h; exact h
  | succ fuel ih =>
    intro s a b h
    unfold Cache.expireLoop
    dsimp only
    split
    · exact h
    · exact ih _ _ _ (sizeInv_deleteRows h _)

theorem countInv_chunkDeleteLoop (fuel : Nat) :
    ∀ (s : CacheState) (pred : Row → Bool) (bound : Nat), countInv s →
      countInv (Cache.chunkDeleteLoop fuel s pred bound) := by
  induction fuel with
  | zero => intro s p b h; exact h
  | succ fuel ih =>
    intro s p b h
    unfold Cache.chunkDeleteLoop
    dsimp only
    split
    · exact h
    · exact ih _ _ _ (countInv_deleteRows h _)

theorem sizeInv_chunkDeleteLoop (fuel : Nat) :
    ∀ (s : CacheState) (pred : Row → Bool) (bound : Nat), sizeInv s →
      sizeInv (Cache.chunkDeleteLoop fuel s pred bound) := by
  induction fuel with
  | zero => intro s p b h; exact h
  | succ fuel ih =>
    intro s p b h
    unfold Cache.chunkDeleteLoop
    dsimp only
    split
    · exact h
    · exact ih _ _ _ (sizeInv_deleteRows h _)

theorem countInv_checkFileStep {s : CacheState} (h : countInv s) (r : Row) :
    countInv (Cache.checkFileStep s r) := by
  unfold Cache.checkFileStep
  split
  · split
    · exact h
    · exact countInv_delete_row h _ _ _
  · exact h

theorem sizeInv_checkFileStep {s : CacheState} (h : sizeInv s) (r : Row) :
    sizeInv (Cache.checkFileStep s r) := by
  unfold Cache.checkFileStep
  split
  · split
    · exact h
    · exact sizeInv_delete_row h _ _ _
  · exact h

theorem countInv_foldl_checkFileStep (sel : List Row) :
    ∀ (s : CacheState), countInv s →
      countInv (sel.foldl Cache.checkFileStep s) := by
  induction sel with
  | nil => intro s h; exact h
  | cons r L ih =>
    intro s h
    exact ih _ (countInv_checkFileStep h r)

theorem sizeInv_foldl_checkFileStep (sel : List Row) :
    ∀ (s : CacheState), sizeInv s →
      sizeInv (sel.foldl Cache.checkFileStep s) := by
  induction sel with
  | nil => intro s h; exact h
  | cons r L ih =>
    intro s h
    exact ih _ (sizeInv_checkFileStep h r)

theorem countInv_checkFilesLoop (fuel : Nat) :
    ∀ (s : CacheState) (bound : Nat), countInv s →
      countInv (Cache.checkFilesLoop fuel s bound) := by
  induction fuel with
  | zero => intro s b h; exact h
  | succ fuel ih =>
    intro s b h
    unfold Cache.checkFilesLoop
    dsimp only
    split
    · exact h
    · exact ih _ _ (countInv_foldl_checkFileStep _ _ h)

theorem sizeInv_checkFilesLoop (fuel : Nat) :
    ∀ (s : CacheState) (bound : Nat), sizeInv s →
      sizeInv (Cache.checkFilesLoop fuel s bound) := by
  induction fuel with
  | zero => intro s b h; exact h
  | succ fuel ih =>
    intro s b h
    unfold Cache.checkFilesLoop
    dsimp only
    split
    · exact h
    · exact ih _ _ (sizeInv_foldl_checkFileStep _ _ h)

theorem countInv_check {s : CacheState} (h : countInv s) (fix : Bool) :
    countInv (Cache.check s fix) := by
  unfold Cache.check
  split
  · have h1 : countInv (Cache.checkCountFix s) := by
      unfold Cache.checkCountFix countInv
      split <;> [rfl; exact h]
    have h2 : countInv (Cache.checkReservations (Cache.checkCountFix s)) :=
      countInv_deleteRows h1 _
    have h3 := countInv_checkFilesLoop
      ((Cache.checkReservations (Cache.checkCountFix s)).rows.length + 1)
      (Cache.checkReservations (Cache.checkCountFix s)) 0 h2
    have h4 : countInv (Cache.checkSizeFix (Cache.checkFilesLoop
        ((Cache.checkReservations (Cache.checkCountFix s)).rows.length + 1)
        (Cache.checkReservations (Cache.checkCountFix s)) 0)) := by
      unfold Cache.checkSizeFix countInv
      split <;> exact h3
    unfold Cache.checkUnref countInv at *
    exact h4
  · exact h

theorem sizeInv_check {s : CacheState} (h : sizeInv s) (fix : Bool) :
    sizeInv (Cache.check s fix) := by
  unfold Cache.check
  split
  · have h1 : sizeInv (Cache.checkCountFix s) := by
      unfold Cache.checkCountFix sizeInv
      split <;> exact h
    have h2 : sizeInv (Cache.checkReservations (Cache.checkCountFix s)) :=
      sizeInv_deleteRows h1 _
    have h3 := sizeInv_checkFilesLoop
      ((Cache.checkReservations (Cache.checkCountFix s)).rows.length + 1)
      (Cache.checkReservations (Cache.checkCountFix s)) 0 h2
    have h4 : sizeInv (Cache.checkSizeFix (Cache.checkFilesLoop
        ((Cache.checkReservations (Cache.checkCountFix s)).rows.length + 1)
        (Cache.checkReservations (Cache.checkCountFix s)) 0)) := by
      unfold Cache.checkSizeFix sizeInv
      split <;> [rfl; exact h3]
    unfold Cache.checkUnref sizeInv at *
    exact h4
  · exact h

theorem countInv_applyOp (o : Op) (s : CacheState) (h : countInv s) :
    countInv (applyOp o s) := by
  cases o with
  | opSet key value now expire tag => exact countInv_set h key value now expire tag
  | opGet key now => exact countInv_get h key now
  | opGetItem key now =>
      have := countInv_get h key now
      simp only [applyOp]
      rw [getitem_state]
      exact this
  | opDelItem key => exact countInv_delitem h key
  | opDelete key => exact countInv_delitem h key
  | opExpire now => exact countInv_expireLoop _ _ _ _ h
  | opEvict tag => exact countInv_chunkDeleteLoop _ _ _ _ h
  | opClear => exact countInv_chunkDeleteLoop _ _ _ _ h
  | opCheck fix => exact countInv_check h fix
  | opStats enable reset =>
      simp only [applyOp]
      unfold Cache.stats countInv at *
      dsimp only
      split <;> exact h
  | opLen => exact h

theorem sizeInv_applyOp (o : Op) (s : CacheState) (h : sizeInv s) :
    sizeInv (applyOp o s) := by
  cases o with
  | opSet key value now expire tag => exact sizeInv_set h key value now expire tag
  | opGet key now => exact sizeInv_get h key now
  | opGetItem key now =>
      have := sizeInv_get h key now
      simp only [applyOp]
      rw [getitem_state]
      exact this
  | opDelItem key => exact sizeInv_delitem h key
  | opDelete key => exact sizeInv_delitem h key
  | opExpire now => exact sizeInv_expireLoop _ _ _ _ h
  | opEvict tag => exact sizeInv_chunkDeleteLoop _ _ _ _ h
  | opClear => exact sizeInv_chunkDeleteLoop _ _ _ _ h
  | opCheck fix => exact sizeInv_check h fix
  | opStats enable reset =>
      simp only [applyOp]
      unfold Cache.stats sizeInv at *
      dsimp only
      split <;> exact h
  | opLen => exact h

/-- C2 amended: after every committed operation, `Settings.count` equals the
TOTAL number of Cache rows — reservations included — and `len()` returns that
total (the triggers fire on every insert, so a reservation row left behind by
an aborted or failed `set` IS counted). -/
theorem committed_count_amended (o : Op) (s : CacheState) (h : countInv s) :
    countInv (applyOp o s) ∧
    Cache.len (applyOp o s) = (((applyOp o s).rows.length : Int)) := by
  have h1 := countInv_applyOp o s h
  exact ⟨h1, h1⟩

/-- Witness for the amended C2 at a concrete operation on a fresh cache. -/
theorem committed_count_amended_witness :
    countInv (applyOp (.opSet (.bytes [0]) (.int 1) 0 Option.none Option.none)
      (Cache.init defaultTuning false)) ∧
    Cache.len (applyOp (.opSet (.bytes [0]) (.int 1) 0 Option.none Option.none)
        (Cache.init defaultTuning false)) =
      ((applyOp (.opSet (.bytes [0]) (.int 1) 0 Option.none Option.none)
          (Cache.init defaultTuning false)).rows.length : Int) :=
  committed_count_amended _ _ rfl

/-- C5: after every committed operation, `Settings.size` equals
`SUM(Cache.size)` over all rows, reservations included — the size triggers
keep the counter coupled to the table. -/
theorem size_counter_coupling (o : Op) (s : CacheState) (h : sizeInv s) :
    sizeInv (applyOp o s) :=
  sizeInv_applyOp o s h

/-- Witness for C5 at a concrete operation on a fresh cache. -/
theorem size_counter_coupling_witness :
    sizeInv (applyOp (.opSet (.bytes [0]) (.bytes [1, 2, 3]) 0 Option.none Option.none)
      (Cache.init defaultTuning false)) :=
  size_counter_coupling _ _ rfl

/-! ### C10 — Reservation-row asymmetry between `__getitem__` and `__delitem__` -/

theorem filter_eq_singleton {α β : Type} [DecidableEq β] (f : α → β) :
    ∀ (l : List α), (l.map f).Nodup → ∀ a ∈ l, ∀ (p : α → Bool),
      (∀ x, p x = true → f x = f a) → p a = true → l.filter p = [a] := by
  intro l
  induction l with
  | nil =>
    intro _ a ha
    exact absurd ha (List.not_mem_nil a)
  | cons x xs ih =>
    intro hnd a ha p hp hpa
    simp only [List.map_cons, List.nodup_cons] at hnd
    rcases List.mem_cons.mp ha with rfl | hmem
    · have hnil : xs.filter p = [] := by
        apply List.filter_eq_nil_iff.mpr
        intro y hy hpy
        exact hnd.1 ((hp y hpy) ▸ List.mem_map_of_mem f hy)
      rw [List.filter_cons, if_pos (by simp [hpa]), hnil]
    · have hpx : p x = false := by
        cases hx : p x with
        | false => rfl
        | true => exact absurd ((hp x hx) ▸ List.mem_map_of_mem f hmem) hnd.1
      rw [List.filter_cons, if_neg (by simp [hpx])]
      exact ih hnd.2 a hmem p hp hpa

/-- C10: when the row for a key is a reservation (`store_time IS NULL`),
`__getitem__` raises `KeyError` — the reservation reads as a miss — while
`__delitem__` does not raise and instead deletes the reservation row. -/
theorem reservation_row_asymmetry (s : CacheState) (key : PyVal) (now : ℚ)
    (r : Row)
    (hnd : (s.rows.map (fun x => x.rowid)).Nodup)
    (hfind : findRowKR s.rows (Disk.put key).1 (Disk.put key).2 = some r)
    (hres : r.store_time = Option.none) :
    (Cache.getitem s key now).1 = .error () ∧
    ∃ s', Cache.delitem s key = .ok s' ∧ r ∉ s'.rows ∧
      ∀ x ∈ s.rows, x ≠ r → x ∈ s'.rows := by
  rcases hput : Disk.put key with ⟨dbk, raw⟩
  rw [hput] at hfind
  have hmem : r ∈ s.rows := List.mem_of_find?_eq_some hfind
  have hget : Cache.get s key now = (.miss, Cache.bumpMiss s) := by
    unfold Cache.get
    rw [hput]
    dsimp only
    rw [hfind]
    dsimp only
    rw [if_pos hres]
  have hfil : s.rows.filter
      (fun x => decide (x.rowid = r.rowid ∧ x.version = r.version)) = [r] := by
    apply filter_eq_singleton (fun x => x.rowid) s.rows hnd r hmem
    · intro x hx
      simp only [decide_eq_true_eq] at hx
      exact hx.1
    · simp
  have hdel : Cache.delitem s key =
      .ok (Cache.delete_row s r.rowid r.version r.filename).2 := by
    unfold Cache.delitem
    rw [hput]
    dsimp only
    rw [hfind]
  refine ⟨?_, (Cache.delete_row s r.rowid r.version r.filename).2, hdel, ?_, ?_⟩
  · unfold Cache.getitem
    rw [hget]
  · rw [delete_row_eq]
    dsimp only
    intro hcontra
    have := (List.mem_filter.mp hcontra).2
    simp at this
  · intro x hx hne
    rw [delete_row_eq]
    dsimp only
    apply List.mem_filter.mpr
    refine ⟨hx, ?_⟩
    have hpx : (decide (x.rowid = r.rowid ∧ x.version = r.version)) = false := by
      cases hp : (decide (x.rowid = r.rowid ∧ x.version = r.version)) with
      | false => rfl
      | true =>
        have hxin : x ∈ s.rows.filter
            (fun x => decide (x.rowid = r.rowid ∧ x.version = r.version)) :=
          List.mem_filter.mpr ⟨hx, hp⟩
        rw [hfil] at hxin
        simp only [List.mem_singleton] at hxin
        exact absurd hxin hne
    simp [hpx]

/-- Witness for C10 on the concrete reservation state. -/
theorem reservation_row_asymmetry_witness :
    (Cache.getitem c10State (.bytes [0]) 0).1 = .error () ∧
    ∃ s', Cache.delitem c10State (.bytes [0]) = .ok s' ∧ c10Row ∉ s'.rows ∧
      ∀ x ∈ c10State.rows, x ≠ c10Row → x ∈ s'.rows :=
  reservation_row_asymmetry c10State (.bytes [0]) 0 c10Row
    (by decide) (by decide) (by decide)

/-! ### C6 — Miss condition of `get` -/

/-- For a committed row satisfying the shape invariant, `fetch` either
reports exactly a missing backing file, or succeeds (and then no named file
is missing). -/
theorem fetch_of_rowOK (files : List (Nat × FileContent)) (r : Row)
    (hOK : rowOKb files r = true) (hst : r.store_time ≠ Option.none) :
    (Disk.fetch files r.mode r.filename r.value = .error .enoent ∧
      ∃ f, r.filename = some f ∧ Disk.lookupFile files f = Option.none) ∨
    ((∃ v, Disk.fetch files r.mode r.filename r.value = .ok v) ∧
      ¬ ∃ f, r.filename = some f ∧ Disk.lookupFile files f = Option.none) := by
  unfold rowOKb at hOK
  rw [if_neg hst] at hOK
  by_cases hraw : r.mode = MODE_RAW
  · rw [if_pos hraw] at hOK
    right
    constructor
    · rcases hvv : r.value with _ | dv
      · exact ⟨.none, by simp [Disk.fetch, hraw, hvv]⟩
      · rcases dv with b | n | str | fl | pv
        · exact ⟨.bytes b, by simp [Disk.fetch, hraw, hvv]⟩
        · exact ⟨.int n, by simp [Disk.fetch, hraw, hvv]⟩
        · exact ⟨.text str, by simp [Disk.fetch, hraw, hvv]⟩
        · exact ⟨.float fl, by simp [Disk.fetch, hraw, hvv]⟩
        · exact ⟨.bytes (pickleBytes pv), by simp [Disk.fetch, hraw, hvv]⟩
    · rintro ⟨f, hf, _⟩
      rw [hf] at hOK
      simp at hOK
  · rw [if_neg hraw] at hOK
    by_cases hbin : r.mode = MODE_BINARY
    · rw [if_pos hbin] at hOK
      rcases hfn : r.filename with _ | f
      · rw [hfn] at hOK
        simp at hOK
      · rcases hlk : Disk.lookupFile files f with _ | c
        · left
          refine ⟨?_, f, rfl, hlk⟩
          simp [Disk.fetch, hbin, hfn, hlk, MODE_BINARY, MODE_RAW]
        · right
          constructor
          · exact ⟨.bytes c.asBytes,
              by simp [Disk.fetch, hbin, hfn, hlk, MODE_BINARY, MODE_RAW]⟩
          · rintro ⟨f2, hf2, hlk2⟩
            injection hf2 with hf2
            rw [← hf2] at hlk2
            rw [hlk2] at hlk
            cases hlk
    · rw [if_neg hbin] at hOK
      by_cases htxt : r.mode = MODE_TEXT
      · rw [if_pos htxt] at hOK
        rcases hfn : r.filename with _ | f
        · rw [hfn] at hOK
          simp at hOK
        · rw [hfn] at hOK
          dsimp only at hOK
          unfold txtContentOK at hOK
          rcases hlk : Disk.lookupFile files f with _ | c
          · left
            refine ⟨?_, f, rfl, hlk⟩
            simp [Disk.fetch, htxt, hfn, hlk, MODE_TEXT, MODE_BINARY, MODE_RAW]
          · rw [hlk] at hOK
            rcases c with b | str | v
            · simp at hOK
            · right
              constructor
              · exact ⟨.text str,
                  by simp [Disk.fetch, htxt, hfn, hlk, MODE_TEXT, MODE_BINARY, MODE_RAW]⟩
              · rintro ⟨f2, hf2, hlk2⟩
                injection hf2 with hf2
                rw [← hf2] at hlk2
                rw [hlk2] at hlk
                cases hlk
            · simp at hOK
      · rw [if_neg htxt] at hOK
        by_cases hpik : r.mode = MODE_PICKLE
        · rw [if_pos hpik] at hOK
          rcases hv : r.value with _ | dv
          · rcases hfn : r.filename with _ | f
            · rw [hv, hfn] at hOK
              simp at hOK
            · rw [hv, hfn] at hOK
              dsimp only at hOK
              unfold pickContentOK at hOK
              rcases hlk : Disk.lookupFile files f with _ | c
              · left
                refine ⟨?_, f, rfl, hlk⟩
                simp [Disk.fetch, hpik, hfn, hv, hlk,
                  MODE_PICKLE, MODE_TEXT, MODE_BINARY, MODE_RAW]
              · rw [hlk] at hOK
                rcases c with b | str | v
                · simp at hOK
                · simp at hOK
                · right
                  constructor
                  · exact ⟨v, by simp [Disk.fetch, hpik, hfn, hv, hlk,
                      MODE_PICKLE, MODE_TEXT, MODE_BINARY, MODE_RAW]⟩
                  · rintro ⟨f2, hf2, hlk2⟩
                    injection hf2 with hf2
                    rw [← hf2] at hlk2
                    rw [hlk2] at hlk
                    cases hlk
          · rcases hfn : r.filename with _ | f
            · rw [hv, hfn] at hOK
              rcases dv with b | n | str | fl | v
              · simp at hOK
              · simp at hOK
              · simp at hOK
              · simp at hOK
              · right
                constructor
                · exact ⟨v, by simp [Disk.fetch, hpik, hfn, hv,
                    MODE_PICKLE, MODE_TEXT, MODE_BINARY, MODE_RAW]⟩
                · rintro ⟨f2, hf2, _⟩
                  cases hf2
            · rw [hv, hfn] at hOK
              rcases dv with b | n | str | fl | v <;> simp at hOK
        · rw [if_neg hpik] at hOK
          cases hOK

/-- C6: `get` returns `default` (a miss) exactly when the key has no row,
the row is a reservation, the entry is expired, or the row names a missing
backing file; otherwise it returns the stored value, and a reservation row's
content is never returned (a hit always comes from a committed row). -/
theorem get_miss_iff (s : CacheState) (key : PyVal) (now : ℚ)
    (hrows : ∀ r ∈ s.rows, rowOKb s.files r = true) :
    ((Cache.get s key now).1 = .miss ↔ missSpec s key now) ∧
    (∀ v, (Cache.get s key now).1 = .hit v →
      ∃ r, findRowKR s.rows (Disk.put key).1 (Disk.put key).2 = some r ∧
        r.store_time ≠ Option.none ∧
        Disk.fetch s.files r.mode r.filename r.value = .ok v) := by
  rcases hput : Disk.put key with ⟨dbk, raw⟩
  unfold missSpec
  rw [hput]
  dsimp only
  rcases hfind : findRowKR s.rows dbk raw with _ | r
  · have hg : Cache.get s key now = (.miss, Cache.bumpMiss s) := by
      unfold Cache.get
      rw [hput]
      dsimp only
      rw [hfind]
    rw [hg]
    exact ⟨by simp, fun v hv => by simp at hv⟩
  · have hOK := hrows r (List.mem_of_find?_eq_some hfind)
    rcases hst : r.store_time with _ | st
    · have hg : Cache.get s key now = (.miss, Cache.bumpMiss s) := by
        unfold Cache.get
        rw [hput]
        dsimp only
        rw [hfind]
        dsimp only
        rw [if_pos hst]
      rw [hg]
      exact ⟨⟨fun _ => Or.inl hst, fun _ => rfl⟩, fun v hv => by simp at hv⟩
    · have hstne : r.store_time ≠ Option.none := by rw [hst]; simp
      rcases het : r.expire_time with _ | t
      · rcases fetch_of_rowOK s.files r hOK hstne with
          ⟨hfe, f, hf, hlk⟩ | ⟨⟨v, hfv⟩, hnofile⟩
        · have hg : Cache.get s key now = (.miss, Cache.bumpMiss s) := by
            unfold Cache.get
            rw [hput]
            dsimp only
            rw [hfind]
            dsimp only
            rw [if_neg hstne, het]
            dsimp only
            rw [hfe]
          rw [hg]
          exact ⟨⟨fun _ => Or.inr (Or.inr ⟨f, hf, hlk⟩), fun _ => rfl⟩,
            fun v hv => by simp at hv⟩
        · have hg : Cache.get s key now =
              (.hit v, Cache.policyOnGet (Cache.bumpHit s) r.rowid now) := by
            unfold Cache.get
            rw [hput]
            dsimp only
            rw [hfind]
            dsimp only
            rw [if_neg hstne, het]
            dsimp only
            rw [hfv]
          rw [hg]
          constructor
          · constructor
            · intro hcon
              simp at hcon
            · intro hspec
              rcases hspec with h1 | ⟨t2, ht2, _⟩ | h3
              · exact absurd h1 hstne
              · rw [het] at ht2
                cases ht2
              · exact absurd h3 hnofile
          · intro v2 hv2
            simp only [Cache.GetOutcome.hit.injEq] at hv2
            exact ⟨r, rfl, hstne, by rw [← hv2]; exact hfv⟩
      · by_cases hlt : t < now
        · have hg : Cache.get s key now = (.miss, Cache.bumpMiss s) := by
            unfold Cache.get
            rw [hput]
            dsimp only
            rw [hfind]
            dsimp only
            rw [if_neg hstne, het]
            dsimp only
            rw [if_pos hlt]
          rw [hg]
          exact ⟨⟨fun _ => Or.inr (Or.inl ⟨t, het, hlt⟩), fun _ => rfl⟩,
            fun v hv => by simp at hv⟩
        · rcases fetch_of_rowOK s.files r hOK hstne with
            ⟨hfe, f, hf, hlk⟩ | ⟨⟨v, hfv⟩, hnofile⟩
          · have hg : Cache.get s key now = (.miss, Cache.bumpMiss s) := by
              unfold Cache.get
              rw [hput]
              dsimp only
              rw [hfind]
              dsimp only
              rw [if_neg hstne, het]
              dsimp only
              rw [if_neg hlt, hfe]
            rw [hg]
            exact ⟨⟨fun _ => Or.inr (Or.inr ⟨f, hf, hlk⟩), fun _ => rfl⟩,
              fun v hv => by simp at hv⟩
          · have hg : Cache.get s key now =
                (.hit v, Cache.policyOnGet (Cache.bumpHit s) r.rowid now) := by
              unfold Cache.get
              rw [hput]
              dsimp only
              rw [hfind]
              dsimp only
              rw [if_neg hstne, het]
              dsimp only
              rw [if_neg hlt, hfv]
            rw [hg]
            constructor
            · constructor
              · intro hcon
                simp at hcon
              · intro hspec
                rcases hspec with h1 | ⟨t2, ht2, hlt2⟩ | h3
                · exact absurd h1 hstne
                · rw [het] at ht2
                  injection ht2 with ht2
                  rw [← ht2] at hlt2
                  exact absurd hlt2 hlt
                · exact absurd h3 hnofile
            · intro v2 hv2
              simp only [Cache.GetOutcome.hit.injEq] at hv2
              exact ⟨r, rfl, hstne, by rw [← hv2]; exact hfv⟩

/-- Witness for C6: the miss characterization applied to a concrete cache
and both a present and an absent key. -/
theorem get_miss_iff_witness :
    ((Cache.get c6State (.bytes [0]) 1).1 = .miss ↔ missSpec c6State (.bytes [0]) 1) ∧
    (∀ v, (Cache.get c6State (.bytes [0]) 1).1 = .hit v →
      ∃ r, findRowKR c6State.rows (Disk.put (.bytes [0])).1 (Disk.put (.bytes [0])).2 = some r ∧
        r.store_time ≠ Option.none ∧
        Disk.fetch c6State.files r.mode r.filename r.value = .ok v) :=
  get_miss_iff c6State (.bytes [0]) 1 (by decide)

/-! ### Well-formedness and deletion machinery (claims C1 and C3) -/

theorem rowFileLt_spec {r : Row} {n : Nat} (h : rowFileLt r n = true) :
    ∀ f, r.filename = some f → f < n := by
  intro f hf
  unfold rowFileLt at h
  rw [hf] at h
  simpa using h

theorem insertLe_perm (le : Row → Row → Bool) (r : Row) (l : List Row) :
    (insertLe le r l).Perm (r :: l) := by
  induction l with
  | nil => exact List.Perm.refl _
  | cons x xs ih =>
    unfold insertLe
    split
    · exact List.Perm.refl _
    · exact (ih.cons x).trans (List.Perm.swap r x xs)

theorem sortRows_perm (le : Row → Row → Bool) (l : List Row) :
    (sortRows le l).Perm l := by
  induction l with
  | nil => exact List.Perm.refl _
  | cons x xs ih =>
    unfold sortRows
    exact (insertLe_perm le x (sortRows le xs)).trans (ih.cons x)

/-- Members of a sorted-then-truncated selection come from the original
list. -/
theorem mem_of_mem_take_sort {le : Row → Row → Bool} {l : List Row} {n : Nat}
    {x : Row} (hx : x ∈ (sortRows le l).take n) : x ∈ l :=
  (sortRows_perm le l).mem_iff.mp (List.mem_of_mem_take hx)

/-- A sorted-then-truncated selection of a list with unique rowids has
unique rowids. -/
theorem nodup_take_sort {le : Row → Row → Bool} {l : List Row} {n : Nat}
    (hnd : (l.map (fun x => x.rowid)).Nodup) :
    (((sortRows le l).take n).map (fun x => x.rowid)).Nodup := by
  have hperm : ((sortRows le l).map (fun x => x.rowid)).Perm
      (l.map (fun x => x.rowid)) := (sortRows_perm le l).map _
  have hsorted : ((sortRows le l).map (fun x => x.rowid)).Nodup :=
    hperm.nodup_iff.mpr hnd
  exact hsorted.sublist ((List.take_sublist n (sortRows le l)).map _)

theorem lookup_writeFile_self (files : List (Nat × FileContent)) (f : Nat)
    (c : FileContent) :
    Disk.lookupFile (writeFile files f c) f = some c := by
  unfold Disk.lookupFile writeFile
  rw [List.find?_append]
  rw [show (removeFile files f).find? (fun p => p.1 == f) = Option.none from ?_]
  · simp
  · apply List.find?_eq_none.mpr
    intro x hx
    have := (List.mem_filter.mp hx).2
    simpa using this

/-- Shape of a `Disk.store` result: inline results carry no file, file
results use exactly the offered fresh name and carry content. -/
theorem store_shape (v : PyVal) (τ N : Nat) :
    ((Disk.store v τ N).filename = Option.none ∧
      (Disk.store v τ N).content = Option.none) ∨
    ((Disk.store v τ N).filename = some N ∧
      ∃ c, (Disk.store v τ N).content = some c) := by
  rcases v with _ | n | fl | str | b | o <;>
    simp only [Disk.store, Disk.pickleStoreRes] <;>
    (try split) <;> (try split) <;> simp

/-- Rows of equal rowid in a rowid-unique list are equal. -/
theorem row_eq_of_rowid_eq {l : List Row}
    (hnd : (l.map (fun x => x.rowid)).Nodup) {x y : Row}
    (hx : x ∈ l) (hy : y ∈ l) (h : x.rowid = y.rowid) : x = y :=
  List.inj_on_of_nodup_map hnd hx hy h

/-- Rows of equal `(key, raw)` in a key-unique list are equal. -/
theorem row_eq_of_key_eq {l : List Row}
    (hnd : (l.map (fun x => (x.key, x.raw))).Nodup) {x y : Row}
    (hx : x ∈ l) (hy : y ∈ l) (hk : x.key = y.key) (hr : x.raw = y.raw) :
    x = y :=
  List.inj_on_of_nodup_map hnd hx hy (by rw [hk, hr])

/-- Full characterization of a deletion loop over a selection of present
rows with unique rowids: every delete succeeds, exactly the selected rows
disappear, rowid uniqueness is preserved, file removals touch only names
referenced by the selection, and the settings are untouched. -/
theorem deleteRows_spec :
    ∀ (L : List Row) (s : CacheState),
      (s.rows.map (fun x => x.rowid)).Nodup →
      (∀ a ∈ L, a ∈ s.rows) →
      (L.map (fun x => x.rowid)).Nodup →
      (Cache.deleteRows s L).2 = L.length ∧
      (∀ x, x ∈ (Cache.deleteRows s L).1.rows ↔
        (x ∈ s.rows ∧ ∀ a ∈ L, x.rowid ≠ a.rowid)) ∧
      ((Cache.deleteRows s L).1.rows.map (fun x => x.rowid)).Nodup ∧
      (∀ n, (∀ a ∈ L, ∀ f, a.filename = some f → f ≠ n) →
        Disk.lookupFile (Cache.deleteRows s L).1.files n =
          Disk.lookupFile s.files n) ∧
      (Cache.deleteRows s L).1.tuning = s.tuning := by
  intro L
  induction L with
  | nil =>
    intro s hnd _ _
    refine ⟨rfl, fun x => ?_, hnd, fun n _ => rfl, rfl⟩
    simp [Cache.deleteRows]
  | cons a L ih =>
    intro s hnd hsub hLnd
    have hamem : a ∈ s.rows := hsub a (by simp)
    simp only [List.map_cons, List.nodup_cons] at hLnd
    -- the head delete removes exactly `a`
    have hfil : s.rows.filter
        (fun x => decide (x.rowid = a.rowid ∧ x.version = a.version)) = [a] := by
      apply filter_eq_singleton (fun x => x.rowid) s.rows hnd a hamem
      · intro x hx
        simp only [decide_eq_true_eq] at hx
        exact hx.1
      · simp
    have heq := delete_row_eq s a.rowid a.version a.filename
    rcases hdr : Cache.delete_row s a.rowid a.version a.filename with ⟨okh, s'⟩
    rw [hdr] at heq
    rw [Prod.mk.injEq] at heq
    obtain ⟨hokh, hs'eq⟩ := heq
    have hokh' : okh = true := by
      rw [hokh, hfil]
      simp
    have hrows' : s'.rows = s.rows.filter
        (fun x => !(decide (x.rowid = a.rowid ∧ x.version = a.version))) := by
      rw [hs'eq]
    have hmem' : ∀ x, x ∈ s'.rows ↔ (x ∈ s.rows ∧ x.rowid ≠ a.rowid) := by
      intro x
      rw [hrows']
      constructor
      · intro hx
        have h1 := List.mem_filter.mp hx
        refine ⟨h1.1, fun hre => ?_⟩
        have hxa : x = a := row_eq_of_rowid_eq hnd h1.1 hamem hre
        rw [hxa] at h1
        simp at h1
      · intro ⟨hx, hne⟩
        apply List.mem_filter.mpr
        refine ⟨hx, ?_⟩
        simp only [Bool.not_eq_eq_eq_not, Bool.not_true, decide_eq_false_iff_not]
        intro hand
        exact hne hand.1
    have hnd' : (s'.rows.map (fun x => x.rowid)).Nodup := by
      rw [hrows']
      exact hnd.sublist ((List.filter_sublist s.rows).map _)
    have hsub' : ∀ b ∈ L, b ∈ s'.rows := by
      intro b hb
      apply (hmem' b).mpr
      refine ⟨hsub b (by simp [hb]), fun hre => ?_⟩
      exact hLnd.1 (hre ▸ List.mem_map_of_mem (fun x => x.rowid) hb)
    have hfiles' : ∀ n, (∀ f, a.filename = some f → f ≠ n) →
        Disk.lookupFile s'.files n = Disk.lookupFile s.files n := by
      intro n hn
      rw [hs'eq]
      dsimp only
      split
      · rcases hfn : a.filename with _ | f
        · rfl
        · exact lookupFile_removeFile_ne s.files (fun he => hn f hfn he.symm)
      · rfl
    have htun' : s'.tuning = s.tuning := by rw [hs'eq]
    have hstep : Cache.deleteRows s (a :: L) =
        ((Cache.deleteRows s' L).1, 1 + (Cache.deleteRows s' L).2) := by
      conv_lhs => unfold Cache.deleteRows
      rw [hdr]
      dsimp only
      rw [hokh']
      rcases hdl : Cache.deleteRows s' L with ⟨s3, m3⟩
      rfl
    obtain ⟨ihcount, ihmem, ihnd, ihfiles, ihtun⟩ := ih s' hnd' hsub' hLnd.2
    refine ⟨?_, ?_, ?_, ?_, ?_⟩
    · rw [hstep]
      simp [ihcount]
      omega
    · intro x
      rw [hstep]
      dsimp only
      rw [ihmem x]
      constructor
      · intro ⟨hx, hall⟩
        have h2 := (hmem' x).mp hx
        refine ⟨h2.1, ?_⟩
        intro b hb
        rcases List.mem_cons.mp hb with rfl | hbL
        · exact h2.2
        · exact hall b hbL
      · intro ⟨hx, hall⟩
        refine ⟨(hmem' x).mpr ⟨hx, hall a (by simp)⟩, ?_⟩
        intro b hb
        exact hall b (by simp [hb])
    · rw [hstep]
      exact ihnd
    · intro n hn
      rw [hstep]
      dsimp only
      rw [ihfiles n (fun b hb => hn b (by simp [hb]))]
      exact hfiles' n (hn a (by simp))
    · rw [hstep]
      dsimp only
      rw [ihtun, htun']

/-- What one cull pass achieves: either the expiry sweep used the whole
quota, or the computed total was below `size_limit`, or policy eviction ran
— and then the pass deleted exactly `cull_limit` rows unless it ran out of
rows, in which case the cache is empty afterwards. -/
theorem cullPass_target (s : CacheState) (now : ℚ)
    (hnd : (s.rows.map (fun x => x.rowid)).Nodup) :
    (∃ t, (Cache.cullPass s now).2.2 = some t ∧ t < s.tuning.size_limit) ∨
    (Cache.cullPass s now).2.1 = s.tuning.cull_limit ∨
    (Cache.cullPass s now).1.rows = [] := by
  unfold Cache.cullPass
  dsimp only
  have hEsub : ∀ a ∈ (sortByExpire (s.rows.filter (fun r => isExpiredAt r now))).take
      s.tuning.cull_limit, a ∈ s.rows := by
    intro a ha
    exact List.mem_of_mem_filter (mem_of_mem_take_sort ha)
  have hEnd : (((sortByExpire (s.rows.filter (fun r => isExpiredAt r now))).take
      s.tuning.cull_limit).map (fun x => x.rowid)).Nodup :=
    nodup_take_sort (hnd.sublist ((List.filter_sublist s.rows).map _))
  rcases hd : Cache.deleteRows s
      ((sortByExpire (s.rows.filter (fun r => isExpiredAt r now))).take
        s.tuning.cull_limit) with ⟨s1, e⟩
  obtain ⟨hcount, _, hnd1, _, _⟩ := deleteRows_spec _ s hnd hEsub hEnd
  rw [hd] at hcount hnd1
  dsimp only at hcount hnd1 ⊢
  have hecl : e ≤ s.tuning.cull_limit := by
    rw [hcount, List.length_take]
    exact Nat.min_le_left _ _
  split
  · rename_i h0
    right
    left
    dsimp only
    omega
  · rename_i h0
    split
    · rename_i hlt
      left
      exact ⟨_, rfl, hlt⟩
    · rename_i hge
      have hVsub : ∀ a ∈ (sortRows (policyLe s.tuning.eviction_policy) s1.rows).take
          (s.tuning.cull_limit - e), a ∈ s1.rows := by
        intro a ha
        exact mem_of_mem_take_sort ha
      have hVnd : (((sortRows (policyLe s.tuning.eviction_policy) s1.rows).take
          (s.tuning.cull_limit - e)).map (fun x => x.rowid)).Nodup :=
        nodup_take_sort hnd1
      rcases hd2 : Cache.deleteRows s1
          ((sortRows (policyLe s.tuning.eviction_policy) s1.rows).take
            (s.tuning.cull_limit - e)) with ⟨s2, p⟩
      obtain ⟨hcount2, hmem2, _, _, _⟩ := deleteRows_spec _ s1 hnd1 hVsub hVnd
      rw [hd2] at hcount2 hmem2
      dsimp only at hcount2 hmem2 ⊢
      have hlen : (sortRows (policyLe s.tuning.eviction_policy) s1.rows).length =
          s1.rows.length :=
        (sortRows_perm _ s1.rows).length_eq
      by_cases hle : s.tuning.cull_limit - e ≤ s1.rows.length
      · right
        left
        rw [hcount2, List.length_take, hlen]
        omega
      · right
        right
        have hall : (sortRows (policyLe s.tuning.eviction_policy) s1.rows).take
            (s.tuning.cull_limit - e) =
            sortRows (policyLe s.tuning.eviction_policy) s1.rows := by
          apply List.take_of_length_le
          omega
        apply List.eq_nil_iff_forall_not_mem.mpr
        intro x hx
        have h2 := (hmem2 x).mp hx
        apply h2.2 x ?_ rfl
        rw [hall]
        exact ((sortRows_perm _ s1.rows).mem_iff).mpr h2.1

/-- What `setPrepare` guarantees on a well-formed state: the encoded key and
staged payload are as computed by the codec, there is a row for the key
carrying the observed version, uniqueness and file-name bounds carry over,
and the staged file (if any) is the fresh name and holds the staged
content. -/
theorem setPrepare_spec (s : CacheState) (hWF : WF s) (key value : PyVal)
    (info : Cache.PrepInfo) (s1 : CacheState)
    (hP : Cache.setPrepare s key value = (info, s1)) :
    info.dbKey = (Disk.put key).1 ∧
    info.raw = (Disk.put key).2 ∧
    info.res = Disk.store value s.tuning.large_value_threshold s.nextFileId ∧
    s1.tuning = s.tuning ∧
    (∃ r0 ∈ s1.rows, r0.key = info.dbKey ∧ r0.raw = info.raw ∧
      r0.version = info.version) ∧
    (s1.rows.map (fun x => x.rowid)).Nodup ∧
    (s1.rows.map (fun x => (x.key, x.raw))).Nodup ∧
    (∀ x ∈ s1.rows, ∀ f, x.filename = some f → f < s.nextFileId) ∧
    (∀ f, info.res.filename = some f →
      f = s.nextFileId ∧ Disk.lookupFile s1.files f = info.res.content) := by
  obtain ⟨hndRow, hndKey, hRowLt, hFileLt⟩ := hWF
  have hbound : ∀ x ∈ s.rows, ∀ f, x.filename = some f → f < s.nextFileId :=
    fun x hx => rowFileLt_spec (hFileLt x hx)
  unfold Cache.setPrepare at hP
  rcases hput : Disk.put key with ⟨dbk, raw⟩
  rw [hput] at hP
  dsimp only at hP
  rcases hfind : findRowKR s.rows dbk raw with _ | r0 <;> rw [hfind] at hP <;>
    dsimp only at hP
  · -- no existing row: a reservation is inserted, no old file removed
    rcases store_shape value s.tuning.large_value_threshold s.nextFileId with
      ⟨hf0, hc0⟩ | ⟨hfN, c, hcN⟩
    · rw [show Disk.store value (insertRow s _).tuning.large_value_threshold
          (insertRow s _).nextFileId =
          Disk.store value s.tuning.large_value_threshold s.nextFileId from rfl,
        hf0] at hP
      try dsimp only at hP
      rw [Prod.mk.injEq] at hP
      obtain ⟨hinfo, hs1⟩ := hP
      subst hinfo
      subst hs1
      refine ⟨rfl, rfl, rfl, rfl, ?_, ?_, ?_, ?_, ?_⟩
      · exact ⟨{ rowid := s.nextRowid, key := dbk, raw := raw, version := 0,
                   store_time := Option.none, expire_time := Option.none,
                   access_time := Option.none, access_count := 0,
                   tag := Option.none, size := 0, mode := MODE_NONE,
                   filename := Option.none, value := Option.none },
                by simp [insertRow], rfl, rfl, rfl⟩
      · simp only [insertRow, List.map_append, List.map_cons, List.map_nil]
        rw [List.nodup_append]
        refine ⟨hndRow, by simp, ?_⟩
        intro x hx
        simp only [List.mem_singleton]
        rcases List.mem_map.mp hx with ⟨y, hy, hyx⟩
        try dsimp only at hyx
        intro hcon
        rw [hcon] at hyx
        exact absurd (hyx ▸ hRowLt y hy) (by simp)
      · simp only [insertRow, List.map_append, List.map_cons, List.map_nil]
        rw [List.nodup_append]
        refine ⟨hndKey, by simp, ?_⟩
        intro x hx
        simp only [List.mem_singleton]
        rcases List.mem_map.mp hx with ⟨y, hy, hyx⟩
        try dsimp only at hyx
        intro hcon
        have hy2 : y.key = dbk ∧ y.raw = raw := by
          rw [hcon] at hyx
          exact ⟨congrArg Prod.fst hyx, congrArg Prod.snd hyx⟩
        have := List.find?_eq_none.mp hfind y hy
        simp only [decide_eq_true_eq] at this
        exact this ⟨hy2.1, hy2.2⟩
      · intro x hx f hf
        simp only [insertRow, List.mem_append, List.mem_singleton] at hx
        rcases hx with hx | rfl
        · exact hbound x hx f hf
        · cases hf
      · intro f hf
        rw [hf0] at hf
        cases hf
    · rw [show Disk.store value (insertRow s _).tuning.large_value_threshold
          (insertRow s _).nextFileId =
          Disk.store value s.tuning.large_value_threshold s.nextFileId from rfl,
        hfN, hcN] at hP
      try dsimp only at hP
      rw [Prod.mk.injEq] at hP
      obtain ⟨hinfo, hs1⟩ := hP
      subst hinfo
      subst hs1
      refine ⟨rfl, rfl, rfl, rfl, ?_, ?_, ?_, ?_, ?_⟩
      · exact ⟨{ rowid := s.nextRowid, key := dbk, raw := raw, version := 0,
                   store_time := Option.none, expire_time := Option.none,
                   access_time := Option.none, access_count := 0,
                   tag := Option.none, size := 0, mode := MODE_NONE,
                   filename := Option.none, value := Option.none },
                by simp [insertRow], rfl, rfl, rfl⟩
      · simp only [insertRow, List.map_append, List.map_cons, List.map_nil]
        rw [List.nodup_append]
        refine ⟨hndRow, by simp, ?_⟩
        intro x hx
        simp only [List.mem_singleton]
        rcases List.mem_map.mp hx with ⟨y, hy, hyx⟩
        try dsimp only at hyx
        intro hcon
        rw [hcon] at hyx
        exact absurd (hyx ▸ hRowLt y hy) (by simp)
      · simp only [insertRow, List.map_append, List.map_cons, List.map_nil]
        rw [List.nodup_append]
        refine ⟨hndKey, by simp, ?_⟩
        intro x hx
        simp only [List.mem_singleton]
        rcases List.mem_map.mp hx with ⟨y, hy, hyx⟩
        try dsimp only at hyx
        intro hcon
        have hy2 : y.key = dbk ∧ y.raw = raw := by
          rw [hcon] at hyx
          exact ⟨congrArg Prod.fst hyx, congrArg Prod.snd hyx⟩
        have := List.find?_eq_none.mp hfind y hy
        simp only [decide_eq_true_eq] at this
        exact this ⟨hy2.1, hy2.2⟩
      · intro x hx f hf
        simp only [insertRow, List.mem_append, List.mem_singleton] at hx
        rcases hx with hx | rfl
        · exact hbound x hx f hf
        · cases hf
      · intro f hf
        rw [hfN] at hf
        injection hf with hf
        subst hf
        refine ⟨rfl, ?_⟩
        rw [lookup_writeFile_self, hcN]
  · -- existing row found; its old file (if any) is removed, rows unchanged
    have hr0mem : r0 ∈ s.rows := List.mem_of_find?_eq_some hfind
    have hr0key : r0.key = dbk ∧ r0.raw = raw := by
      have := List.find?_some hfind
      simpa using this
    rcases store_shape value s.tuning.large_value_threshold s.nextFileId with
      ⟨hf0, hc0⟩ | ⟨hfN, c, hcN⟩ <;>
      rcases hfn : r0.filename with _ | oldf <;> rw [hfn] at hP <;> dsimp only at hP
    · rw [show Disk.store value s.tuning.large_value_threshold s.nextFileId =
          Disk.store value s.tuning.large_value_threshold s.nextFileId from rfl,
        hf0] at hP
      try dsimp only at hP
      rw [Prod.mk.injEq] at hP
      obtain ⟨hinfo, hs1⟩ := hP
      subst hinfo
      subst hs1
      exact ⟨rfl, rfl, rfl, rfl, ⟨r0, hr0mem, hr0key.1, hr0key.2, rfl⟩,
        hndRow, hndKey, hbound, fun f hf => by rw [hf0] at hf; cases hf⟩
    · rw [hf0] at hP
      try dsimp only at hP
      rw [Prod.mk.injEq] at hP
      obtain ⟨hinfo, hs1⟩ := hP
      subst hinfo
      subst hs1
      exact ⟨rfl, rfl, rfl, rfl, ⟨r0, hr0mem, hr0key.1, hr0key.2, rfl⟩,
        hndRow, hndKey, hbound, fun f hf => by rw [hf0] at hf; cases hf⟩
    · rw [hfN, hcN] at hP
      try dsimp only at hP
      rw [Prod.mk.injEq] at hP
      obtain ⟨hinfo, hs1⟩ := hP
      subst hinfo
      subst hs1
      refine ⟨rfl, rfl, rfl, rfl, ⟨r0, hr0mem, hr0key.1, hr0key.2, rfl⟩,
        hndRow, hndKey, hbound, ?_⟩
      intro f hf
      rw [hfN] at hf
      injection hf with hf
      subst hf
      refine ⟨rfl, ?_⟩
      rw [lookup_writeFile_self, hcN]
    · rw [hfN, hcN] at hP
      try dsimp only at hP
      rw [Prod.mk.injEq] at hP
      obtain ⟨hinfo, hs1⟩ := hP
      subst hinfo
      subst hs1
      refine ⟨rfl, rfl, rfl, rfl, ⟨r0, hr0mem, hr0key.1, hr0key.2, rfl⟩,
        hndRow, hndKey, hbound, ?_⟩
      intro f hf
      rw [hfN] at hf
      injection hf with hf
      subst hf
      refine ⟨rfl, ?_⟩
      rw [lookup_writeFile_self, hcN]

/-- What the versioned update of `set` guarantees when the observed row is
present with the observed version: the update commits (`ok = true`),
affecting exactly that row, which now carries the staged payload; all other
rows, the files, uniqueness, and the settings are untouched. -/
theorem setCommit_spec (s1 : CacheState) (info : Cache.PrepInfo) (now : ℚ)
    (expire : Option ℚ) (tag : Option String) (r0 : Row)
    (hr0 : r0 ∈ s1.rows) (hk : r0.key = info.dbKey) (hraw : r0.raw = info.raw)
    (hv : r0.version = info.version)
    (hndRow : (s1.rows.map (fun x => x.rowid)).Nodup)
    (hndKey : (s1.rows.map (fun x => (x.key, x.raw))).Nodup)
    (ok : Bool) (s2 : CacheState)
    (hC : Cache.setCommit s1 info now expire tag = (ok, s2)) :
    ok = true ∧
    Cache.setUpdateRow info now expire tag r0 ∈ s2.rows ∧
    (∀ x ∈ s2.rows, x.key = info.dbKey → x.raw = info.raw →
      x = Cache.setUpdateRow info now expire tag r0) ∧
    (∀ x ∈ s2.rows, x = Cache.setUpdateRow info now expire tag r0 ∨ x ∈ s1.rows) ∧
    ((s2.rows.map (fun x => x.rowid)).Nodup) ∧
    ((s2.rows.map (fun x => (x.key, x.raw))).Nodup) ∧
    s2.files = s1.files ∧
    s2.tuning = s1.tuning := by
  set p : Row → Bool := fun r =>
    decide (r.key = info.dbKey ∧ r.raw = info.raw ∧ r.version = info.version)
    with hp
  set upd : Row → Row := Cache.setUpdateRow info now expire tag with hupd
  have hpr0 : p r0 = true := by
    rw [hp]
    simp [hk, hraw, hv]
  have hfilp : s1.rows.filter p = [r0] := by
    apply filter_eq_singleton (fun x => (x.key, x.raw)) s1.rows hndKey r0 hr0
    · intro x hx
      rw [hp] at hx
      simp only [decide_eq_true_eq] at hx
      rw [hx.1, hx.2.1, hk, hraw]
    · exact hpr0
  have hn : (updateRows s1 p upd).2 = 1 := by
    unfold updateRows
    rw [hfilp]
    rfl
  have hcommit : Cache.setCommit s1 info now expire tag =
      (true, (updateRows s1 p upd).1) := by
    unfold Cache.setCommit
    rw [← hp, ← hupd]
    rcases huu : updateRows s1 p upd with ⟨sa, n⟩
    rw [huu] at hn
    dsimp only at hn
    subst hn
    rfl
  rw [hcommit, Prod.mk.injEq] at hC
  obtain ⟨hok, hs2⟩ := hC
  have hok : ok = true := hok.symm
  have hrows2 : s2.rows = s1.rows.map (fun r => if p r then upd r else r) := by
    rw [← hs2]
    rfl
  have hmemchar : ∀ x ∈ s2.rows, x = upd r0 ∨ (x ∈ s1.rows ∧ p x = false) := by
    intro x hx
    rw [hrows2] at hx
    rcases List.mem_map.mp hx with ⟨y, hy, hyx⟩
    by_cases hpy : p y = true
    · left
      have : y ∈ s1.rows.filter p := List.mem_filter.mpr ⟨hy, hpy⟩
      rw [hfilp] at this
      simp only [List.mem_singleton] at this
      rw [← hyx, if_pos hpy, this]
    · right
      have hpy' : p y = false := by
        cases hpyv : p y
        · rfl
        · exact absurd hpyv hpy
      rw [← hyx, if_neg (by rw [hpy']; simp)]
      exact ⟨hy, hpy'⟩
  have hrowid : ∀ y, ((if p y then upd y else y).rowid) = y.rowid := by
    intro y
    by_cases hpy : p y = true
    · rw [if_pos hpy, hupd]
      rfl
    · rw [if_neg hpy]
  have hkeys : ∀ y, (((if p y then upd y else y).key,
      (if p y then upd y else y).raw)) = (y.key, y.raw) := by
    intro y
    by_cases hpy : p y = true
    · rw [if_pos hpy, hupd]
      rfl
    · rw [if_neg hpy]
  refine ⟨hok, ?_, ?_, ?_, ?_, ?_, ?_, ?_⟩
  · rw [hrows2]
    have := List.mem_map_of_mem (fun r => if p r then upd r else r) hr0
    dsimp only at this
    rwa [if_pos hpr0] at this
  · intro x hx hxk hxr
    rcases hmemchar x hx with h1 | ⟨hx1, hpx⟩
    · exact h1
    · exfalso
      have hxr0 : x = r0 := row_eq_of_key_eq hndKey hx1 hr0
        (by rw [hxk, hk]) (by rw [hxr, hraw])
      rw [hxr0, hpr0] at hpx
      cases hpx
  · intro x hx
    rcases hmemchar x hx with h1 | ⟨hx1, _⟩
    · exact Or.inl h1
    · exact Or.inr hx1
  · rw [hrows2, List.map_map]
    have : ((fun x : Row => x.rowid) ∘ fun r => if p r then upd r else r) =
        fun y : Row => y.rowid := funext (fun y => hrowid y)
    rw [this]
    exact hndRow
  · rw [hrows2, List.map_map]
    have : ((fun x : Row => (x.key, x.raw)) ∘ fun r => if p r then upd r else r) =
        fun y : Row => (y.key, y.raw) := funext (fun y => hkeys y)
    rw [this]
    exact hndKey
  · rw [← hs2]
    rfl
  · rw [← hs2]
    rfl

/-! ### C3 — Eviction target -/

/-- Counterexample to C3 as stated: with `size_limit = 0` and `cull_limit =
10`, a successful `set` on a fresh cache computes a total size of 4098 (one
4096-byte page plus the 2-byte value), far above the limit, yet the cull
pass deletes only the single row the cache holds — neither disjunct of the
claim holds. -/
theorem eviction_target_cex :
    (Cache.setFull (Cache.init c1CexTuning false) (.bytes [0]) (.bytes [1, 2]) 0
      Option.none Option.none).2.1 = true ∧
    (Cache.setFull (Cache.init c1CexTuning false) (.bytes [0]) (.bytes [1, 2]) 0
      Option.none Option.none).2.2.2 = some 4098 ∧
    ¬ (4098 : Int) < c1CexTuning.size_limit ∧
    (Cache.setFull (Cache.init c1CexTuning false) (.bytes [0]) (.bytes [1, 2]) 0
      Option.none Option.none).2.2.1 = 1 ∧
    c1CexTuning.cull_limit = 10 := by
  decide

/-- C3 amended: after any successful `set`, either the computed total size
is below `size_limit`, or the cull pass deleted exactly `cull_limit` rows,
or the pass ran out of rows and left the cache empty. -/
theorem eviction_target_amended (s : CacheState) (hWF : WF s)
    (key value : PyVal) (now : ℚ) (expire : Option ℚ) (tag : Option String)
    (_hok : (Cache.setFull s key value now expire tag).2.1 = true) :
    (∃ t, (Cache.setFull s key value now expire tag).2.2.2 = some t ∧
      t < s.tuning.size_limit) ∨
    (Cache.setFull s key value now expire tag).2.2.1 = s.tuning.cull_limit ∨
    (Cache.setFull s key value now expire tag).1.rows = [] := by
  clear _hok
  rcases hP : Cache.setPrepare s key value with ⟨info, s1⟩
  obtain ⟨_, _, _, htun1, ⟨r0, hr0mem, hr0k, hr0r, hr0v⟩, hndRow1, hndKey1,
    _, _⟩ := setPrepare_spec s hWF key value info s1 hP
  rcases hC : Cache.setCommit s1 info now expire tag with ⟨ok, s2⟩
  obtain ⟨hok', _, _, _, hndRow2, _, _, htun2⟩ :=
    setCommit_spec s1 info now expire tag r0 hr0mem hr0k hr0r hr0v
      hndRow1 hndKey1 ok s2 hC
  subst hok'
  have hfull : Cache.setFull s key value now expire tag =
      ((Cache.cullPass s2 now).1, true, (Cache.cullPass s2 now).2.1,
        (Cache.cullPass s2 now).2.2) := by
    unfold Cache.setFull
    rw [hP]
    dsimp only
    rw [hC]
    dsimp only
    rcases hcp : Cache.cullPass s2 now with ⟨s3, culled, total⟩
    rfl
  rw [hfull]
  dsimp only
  have htun : s2.tuning = s.tuning := by rw [htun2, htun1]
  have := cullPass_target s2 now hndRow2
  rw [htun] at this
  exact this

/-- Witness for the amended C3: on a fresh default cache the total stays
below `size_limit`, satisfying the first disjunct. -/
theorem eviction_target_amended_witness :
    (∃ t, (Cache.setFull (Cache.init defaultTuning false) (.bytes [0])
        (.bytes [1, 2]) 0 Option.none Option.none).2.2.2 = some t ∧
      t < (Cache.init defaultTuning false).tuning.size_limit) ∨
    (Cache.setFull (Cache.init defaultTuning false) (.bytes [0]) (.bytes [1, 2])
        0 Option.none Option.none).2.2.1 =
      (Cache.init defaultTuning false).tuning.cull_limit ∨
    (Cache.setFull (Cache.init defaultTuning false) (.bytes [0]) (.bytes [1, 2])
        0 Option.none Option.none).1.rows = [] :=
  eviction_target_amended (Cache.init defaultTuning false)
    (by unfold WF; decide) (.bytes [0]) (.bytes [1, 2]) 0 Option.none Option.none
    (by decide)

/-! ### C1 — Round-trip: codec lemmas and amended theorem -/

/-- Inline round-trip: a value stored without a file fetches back to
itself, whatever the file store holds. -/
theorem store_fetch_inline (value : PyVal) (τ N : Nat)
    (files : List (Nat × FileContent))
    (h : (Disk.store value τ N).filename = Option.none) :
    Disk.fetch files (Disk.store value τ N).mode Option.none
      (Disk.store value τ N).value = .ok value := by
  rcases value with _ | n | fl | str | b | o
  · by_cases hp : pickleLen .none < τ
    · simp [Disk.store, Disk.pickleStoreRes, hp, Disk.fetch,
        MODE_PICKLE, MODE_RAW, MODE_BINARY, MODE_TEXT]
    · simp [Disk.store, Disk.pickleStoreRes, hp] at h
  · by_cases hr : MIN_INT ≤ n ∧ n ≤ MAX_INT
    · simp [Disk.store, hr, Disk.fetch, MODE_RAW]
    · by_cases hp : pickleLen (.int n) < τ
      · simp [Disk.store, Disk.pickleStoreRes, hr, hp, Disk.fetch,
          MODE_PICKLE, MODE_RAW, MODE_BINARY, MODE_TEXT]
      · simp [Disk.store, Disk.pickleStoreRes, hr, hp] at h
  · simp [Disk.store, Disk.fetch, MODE_RAW]
  · by_cases hl : str.length < τ
    · simp [Disk.store, hl, Disk.fetch, MODE_RAW]
    · simp [Disk.store, hl] at h
  · by_cases hl : b.length < τ
    · simp [Disk.store, hl, Disk.fetch, MODE_RAW]
    · simp [Disk.store, hl] at h
  · by_cases hp : pickleLen (.obj o) < τ
    · simp [Disk.store, Disk.pickleStoreRes, hp, Disk.fetch,
        MODE_PICKLE, MODE_RAW, MODE_BINARY, MODE_TEXT]
    · simp [Disk.store, Disk.pickleStoreRes, hp] at h

/-- File round-trip: a value stored to a file fetches back to itself as
long as the file store still maps the staged name to the staged content. -/
theorem store_fetch_file (value : PyVal) (τ N : Nat)
    (files : List (Nat × FileContent)) (f : Nat) (c : FileContent)
    (hf : (Disk.store value τ N).filename = some f)
    (hc : (Disk.store value τ N).content = some c)
    (hlk : Disk.lookupFile files f = some c) :
    Disk.fetch files (Disk.store value τ N).mode (some f)
      (Disk.store value τ N).value = .ok value := by
  rcases value with _ | n | fl | str | b | o
  · by_cases hp : pickleLen .none < τ
    · simp [Disk.store, Disk.pickleStoreRes, hp] at hf
    · simp only [Disk.store, Disk.pickleStoreRes, if_neg hp] at hf hc ⊢
      injection hf with hf
      injection hc with hc
      subst hf
      subst hc
      simp [Disk.fetch, MODE_PICKLE, MODE_RAW, MODE_BINARY, MODE_TEXT, hlk]
  · by_cases hr : MIN_INT ≤ n ∧ n ≤ MAX_INT
    · simp [Disk.store, hr] at hf
    · by_cases hp : pickleLen (.int n) < τ
      · simp [Disk.store, Disk.pickleStoreRes, hr, hp] at hf
      · simp only [Disk.store, Disk.pickleStoreRes, if_neg hr, if_neg hp] at hf hc ⊢
        injection hf with hf
        injection hc with hc
        subst hf
        subst hc
        simp [Disk.fetch, MODE_PICKLE, MODE_RAW, MODE_BINARY, MODE_TEXT, hlk]
  · simp [Disk.store] at hf
  · by_cases hl : str.length < τ
    · simp [Disk.store, hl] at hf
    · simp only [Disk.store, if_neg hl] at hf hc ⊢
      injection hf with hf
      injection hc with hc
      subst hf
      subst hc
      simp [Disk.fetch, MODE_TEXT, MODE_RAW, MODE_BINARY, hlk]
  · by_cases hl : b.length < τ
    · simp [Disk.store, hl] at hf
    · simp only [Disk.store, if_neg hl] at hf hc ⊢
      injection hf with hf
      injection hc with hc
      subst hf
      subst hc
      simp [Disk.fetch, MODE_BINARY, MODE_RAW, hlk, FileContent.asBytes]
  · by_cases hp : pickleLen (.obj o) < τ
    · simp [Disk.store, Disk.pickleStoreRes, hp] at hf
    · simp only [Disk.store, Disk.pickleStoreRes, if_neg hp] at hf hc ⊢
      injection hf with hf
      injection hc with hc
      subst hf
      subst hc
      simp [Disk.fetch, MODE_PICKLE, MODE_RAW, MODE_BINARY, MODE_TEXT, hlk]

/-- The cull pass only deletes rows; a surviving row K was present before,
and if every other row references file names different from `n`, the file
`n` is untouched. -/
theorem cullPass_spec (s2 : CacheState) (now : ℚ)
    (hnd : (s2.rows.map (fun x => x.rowid)).Nodup) (K : Row)
    (hKsurv : K ∈ (Cache.cullPass s2 now).1.rows) :
    K ∈ s2.rows ∧
    (∀ n, (∀ x ∈ s2.rows, x.rowid ≠ K.rowid → ∀ f, x.filename = some f → f ≠ n) →
      Disk.lookupFile (Cache.cullPass s2 now).1.files n =
        Disk.lookupFile s2.files n) := by
  unfold Cache.cullPass at hKsurv ⊢
  dsimp only at hKsurv ⊢
  have hEsub : ∀ a ∈ (sortByExpire (s2.rows.filter (fun r => isExpiredAt r now))).take
      s2.tuning.cull_limit, a ∈ s2.rows := by
    intro a ha
    exact List.mem_of_mem_filter (mem_of_mem_take_sort ha)
  have hEnd : (((sortByExpire (s2.rows.filter (fun r => isExpiredAt r now))).take
      s2.tuning.cull_limit).map (fun x => x.rowid)).Nodup :=
    nodup_take_sort (hnd.sublist ((List.filter_sublist s2.rows).map _))
  obtain ⟨_, hmem1, hnd1, hfiles1, _⟩ := deleteRows_spec _ s2 hnd hEsub hEnd
  rcases hd : Cache.deleteRows s2
      ((sortByExpire (s2.rows.filter (fun r => isExpiredAt r now))).take
        s2.tuning.cull_limit) with ⟨s3, e⟩
  rw [hd] at hmem1 hnd1 hfiles1 hKsurv
  dsimp only at hmem1 hnd1 hfiles1 hKsurv ⊢
  -- helper facts for the first deletion stage
  have stage1 : ∀ n, K ∈ s3.rows →
      (∀ x ∈ s2.rows, x.rowid ≠ K.rowid → ∀ f, x.filename = some f → f ≠ n) →
      Disk.lookupFile s3.files n = Disk.lookupFile s2.files n := by
    intro n hK3 hn
    apply hfiles1
    intro a ha f haf
    have hK2 := (hmem1 K).mp hK3
    refine hn a (hEsub a ha) ?_ f haf
    intro hre
    exact (hK2.2 a ha) hre.symm
  split
  · rename_i hc0
    rw [if_pos hc0] at hKsurv
    dsimp only at hKsurv ⊢
    exact ⟨((hmem1 K).mp hKsurv).1, fun n hn => stage1 n hKsurv hn⟩
  · rename_i hc0
    rw [if_neg hc0] at hKsurv
    split
    · rename_i hc1
      rw [if_pos hc1] at hKsurv
      dsimp only at hKsurv ⊢
      exact ⟨((hmem1 K).mp hKsurv).1, fun n hn => stage1 n hKsurv hn⟩
    · rename_i hc1
      rw [if_neg hc1] at hKsurv
      dsimp only at hKsurv ⊢
      have hVsub : ∀ a ∈ (sortRows (policyLe s2.tuning.eviction_policy) s3.rows).take
          (s2.tuning.cull_limit - e), a ∈ s3.rows := by
        intro a ha
        exact mem_of_mem_take_sort ha
      have hVnd : (((sortRows (policyLe s2.tuning.eviction_policy) s3.rows).take
          (s2.tuning.cull_limit - e)).map (fun x => x.rowid)).Nodup :=
        nodup_take_sort hnd1
      obtain ⟨_, hmem2, _, hfiles2, _⟩ := deleteRows_spec _ s3 hnd1 hVsub hVnd
      rcases hd2 : Cache.deleteRows s3
          ((sortRows (policyLe s2.tuning.eviction_policy) s3.rows).take
            (s2.tuning.cull_limit - e)) with ⟨s4, p⟩
      rw [hd2] at hmem2 hfiles2 hKsurv
      dsimp only at hmem2 hfiles2 hKsurv ⊢
      have hK4 := (hmem2 K).mp hKsurv
      have hK3 : K ∈ s3.rows := hK4.1
      have hK2 := (hmem1 K).mp hK3
      refine ⟨hK2.1, fun n hn => ?_⟩
      rw [hfiles2 n ?_]
      · exact stage1 n hK3 hn
      · intro a ha f haf
        have ha3 := hVsub a ha
        have ha2 := ((hmem1 a).mp ha3).1
        refine hn a ha2 ?_ f haf
        intro hre
        exact (hK4.2 a ha) hre.symm


/-- C1 amended: on any well-formed state, `set(K, V)` (no expiry) followed
by `get(K)` returns V, provided the cull pass run by that `set` did not
evict the row just written (which it can, when the total size reaches
`size_limit` and the eviction policy selects the new row). -/
theorem roundtrip_amended (s : CacheState) (hWF : WF s) (key value : PyVal)
    (now now2 : ℚ) (tag : Option String)
    (hsurv : (findRowKR (Cache.set s key value now Option.none tag).rows
      (Disk.put key).1 (Disk.put key).2).isSome) :
    (Cache.get (Cache.set s key value now Option.none tag) key now2).1 =
      .hit value := by
  rcases hput : Disk.put key with ⟨dbk, raw⟩
  rw [hput] at hsurv
  dsimp only at hsurv
  rcases hP : Cache.setPrepare s key value with ⟨info, s1⟩
  obtain ⟨hdb, hrawi, hres, htun1, ⟨r0, hr0mem, hr0k, hr0r, hr0v⟩, hndRow1,
    hndKey1, hbound1, hstage⟩ := setPrepare_spec s hWF key value info s1 hP
  rw [hput] at hdb hrawi
  dsimp only at hdb hrawi
  rcases hC : Cache.setCommit s1 info now Option.none tag with ⟨ok, s2⟩
  obtain ⟨hok, hKmem, huniq, hdisj, hndRow2, hndKey2, hfiles2eq, htun2⟩ :=
    setCommit_spec s1 info now Option.none tag r0 hr0mem hr0k hr0r hr0v
      hndRow1 hndKey1 ok s2 hC
  subst hok
  have hset : Cache.set s key value now Option.none tag =
      (Cache.cullPass s2 now).1 := by
    unfold Cache.set Cache.setFull
    rw [hP]
    dsimp only
    rw [hC]
    dsimp only
    rcases hcp : Cache.cullPass s2 now with ⟨s3, culled, total⟩
    rfl
  rw [hset] at hsurv ⊢
  rcases hfind : findRowKR (Cache.cullPass s2 now).1.rows dbk raw with _ | r
  · rw [hfind] at hsurv
    simp at hsurv
  · have hrmem' : r ∈ (Cache.cullPass s2 now).1.rows :=
      List.mem_of_find?_eq_some hfind
    have hrkey : r.key = dbk ∧ r.raw = raw := by
      have := List.find?_some hfind
      simpa using this
    obtain ⟨hrs2, hfilepres⟩ := cullPass_spec s2 now hndRow2 r hrmem'
    have hrK : r = Cache.setUpdateRow info now Option.none tag r0 :=
      huniq r hrs2 (hrkey.1.trans hdb.symm) (hrkey.2.trans hrawi.symm)
    have hfetch : Disk.fetch (Cache.cullPass s2 now).1.files
        (Cache.setUpdateRow info now Option.none tag r0).mode
        (Cache.setUpdateRow info now Option.none tag r0).filename
        (Cache.setUpdateRow info now Option.none tag r0).value = .ok value := by
      have hmode : (Cache.setUpdateRow info now Option.none tag r0).mode =
          info.res.mode := rfl
      have hfn : (Cache.setUpdateRow info now Option.none tag r0).filename =
          info.res.filename := rfl
      have hval : (Cache.setUpdateRow info now Option.none tag r0).value =
          info.res.value := rfl
      rw [hmode, hfn, hval, hres]
      rcases store_shape value s.tuning.large_value_threshold s.nextFileId with
        ⟨hf0, hc0⟩ | ⟨hfN, c, hcN⟩
      · rw [hf0]
        exact store_fetch_inline value s.tuning.large_value_threshold
          s.nextFileId (Cache.cullPass s2 now).1.files hf0
      · rw [hfN]
        apply store_fetch_file value s.tuning.large_value_threshold
          s.nextFileId (Cache.cullPass s2 now).1.files s.nextFileId c hfN hcN
        -- the staged file survives the cull pass untouched
        have hstage2 : Disk.lookupFile s2.files s.nextFileId = some c := by
          rw [hfiles2eq]
          have := (hstage s.nextFileId (by rw [hres, hfN])).2
          rw [hres, hcN] at this
          exact this
        rw [← hstage2]
        apply hfilepres
        intro x hx hxrid f hxf
        rcases hdisj x hx with hxK | hx1
        · exfalso
          apply hxrid
          rw [hxK, ← hrK]
        · have := hbound1 x hx1 f hxf
          omega
    unfold Cache.get
    rw [hput]
    dsimp only
    rw [hfind]
    dsimp only
    rw [hrK]
    rw [if_neg (by simp [Cache.setUpdateRow])]
    have hexp : (Cache.setUpdateRow info now Option.none tag r0).expire_time =
        Option.none := rfl
    rw [hexp]
    dsimp only
    rw [hfetch]

/-- Witness for the amended C1 on a fresh default cache: the survival
hypothesis holds and `get` returns the value just stored. -/
theorem roundtrip_amended_witness :
    (findRowKR (Cache.set (Cache.init defaultTuning false) (.bytes [0])
        (.bytes [1, 2]) 0 Option.none Option.none).rows
      (Disk.put (.bytes [0])).1 (Disk.put (.bytes [0])).2).isSome ∧
    (Cache.get (Cache.set (Cache.init defaultTuning false) (.bytes [0])
        (.bytes [1, 2]) 0 Option.none Option.none) (.bytes [0]) 5).1 =
      .hit (.bytes [1, 2]) :=
  ⟨by decide,
    roundtrip_amended (Cache.init defaultTuning false) (by unfold WF; decide)
      (.bytes [0]) (.bytes [1, 2]) 0 5 Option.none (by decide)⟩

/-! ### C9 — Stampede barrier -/

/-- C9: if a cached tuple `(value, delta, expire_time)` exists and the fresh
uniform draw `u` satisfies `-delta * ln u < expire_time - now`, the wrapper
returns the cached value without invoking the function; otherwise it
invokes the function, measures its cost, stores the new tuple
`(result, delta, now + expire)` with TTL `expire`, and returns the fresh
result. -/
theorem stampede_barrier_spec {α : Type} (cached : Option (α × ℚ × ℚ))
    (earlyKeep : Bool) (now0 now1 : ℚ) (funcResult : α) (funcDelta : ℚ)
    (expire : ℚ) (u : ℝ)
    (hdraw : ∀ result delta et, cached = some (result, delta, et) →
      (earlyKeep = true ↔ xfetchKeep (delta : ℝ) ((et : ℝ) - (now0 : ℝ)) u)) :
    (∀ result delta et, cached = some (result, delta, et) →
      (xfetchKeep (delta : ℝ) ((et : ℝ) - (now0 : ℝ)) u →
        stampedeCall cached earlyKeep now1 funcResult funcDelta expire =
          ⟨result, false, Option.none⟩) ∧
      (¬ xfetchKeep (delta : ℝ) ((et : ℝ) - (now0 : ℝ)) u →
        stampedeCall cached earlyKeep now1 funcResult funcDelta expire =
          ⟨funcResult, true, some ((funcResult, funcDelta, now1 + expire), expire)⟩)) ∧
    (cached = Option.none →
      stampedeCall cached earlyKeep now1 funcResult funcDelta expire =
        ⟨funcResult, true, some ((funcResult, funcDelta, now1 + expire), expire)⟩) := by
  constructor
  · intro result delta et hc
    have hiff := hdraw result delta et hc
    subst hc
    constructor
    · intro hkeep
      have : earlyKeep = true := hiff.mpr hkeep
      simp [stampedeCall, this]
    · intro hkeep
      have : earlyKeep = false := by
        cases he : earlyKeep
        · rfl
        · exact absurd (hiff.mp he) hkeep
      simp [stampedeCall, this]
  · intro hc
    subst hc
    rfl

/-- Witness for C9: with `u = 1` the draw condition holds (`ln 1 = 0`), so
a concrete cached tuple is returned without recomputation; with the tuple
absent a concrete store happens. -/
theorem stampede_barrier_spec_witness :
    stampedeCall (some ((0 : Nat), (1 : ℚ), (10 : ℚ))) true 5 7 2 3 =
      ⟨0, false, Option.none⟩ ∧
    stampedeCall (Option.none : Option (Nat × ℚ × ℚ)) true 5 7 2 3 =
      ⟨7, true, some ((7, 2, 5 + 3), 3)⟩ := by
  have hx : xfetchKeep ((1 : ℚ) : ℝ) (((10 : ℚ) : ℝ) - ((5 : ℚ) : ℝ)) 1 := by
    unfold xfetchKeep
    rw [Real.log_one]
    push_cast
    norm_num
  have hdraw : ∀ (result : Nat) (delta et : ℚ),
      (some ((0 : Nat), (1 : ℚ), (10 : ℚ))) = some (result, delta, et) →
      ((true : Bool) = true ↔
        xfetchKeep (delta : ℝ) ((et : ℝ) - ((5 : ℚ) : ℝ)) 1) := by
    intro result delta et hc
    simp only [Option.some.injEq, Prod.mk.injEq] at hc
    obtain ⟨h1, h2, h3⟩ := hc
    subst h1
    subst h2
    subst h3
    exact ⟨fun _ => hx, fun _ => rfl⟩
  have h := stampede_barrier_spec (some ((0 : Nat), (1 : ℚ), (10 : ℚ)))
    true 5 5 7 2 3 1 hdraw
  have h2 := stampede_barrier_spec (Option.none : Option (Nat × ℚ × ℚ))
    true 5 5 7 2 3 1 (by intro r d e hc; cases hc)
  exact ⟨(h.1 0 1 10 rfl).1 hx, h2.2 rfl⟩

end DiskCache
